import Mathlib

/-!
# Authorization informers of the shared informer factory

A shallow embedding of `pkg/controller/shared/authorization_informers.go`.

The file defines, for each of the four authorization kinds (`ClusterPolicy`,
`ClusterPolicyBinding`, `Policy`, `PolicyBinding`), the three accessors
`Informer()`, `Indexer()` and `Lister()` over the factory's table
`coreInformers`, which is keyed by the runtime type of the informer's object.

Modelling conventions:

* A `cache.SharedIndexInformer` is a pointer: it is modelled by its address, and
  the objects built by `cache.NewSharedIndexInformer` live in a heap (a list; the
  address is the position). Equality of addresses is pointer identity.
* The Go map `coreInformers` is an association list with the usual lookup and
  assignment.
* Calls that leave this file (`GetListerWatcher`, the allocation of a
  `cache.ListWatch`, `cache.NewSharedIndexInformer`) are recorded in the machine
  state, so that "was not called" is a statement about the state.
* The two closures of the default `cache.ListWatch` are functions from list
  options to the client request they issue.
-/

namespace Shared

/-! ## Data model -/

/-- The four authorization API struct types of this file. -/
inductive Kind where
  | ClusterPolicy
  | ClusterPolicyBinding
  | Policy
  | PolicyBinding
deriving DecidableEq, Repr

/-- A `runtime.Object` built in this file: a pointer to a struct of one of the four
kinds together with the fields that were set in its composite literal. -/
structure Object where
  kind : Kind
  fields : List (String × String)
deriving DecidableEq, Repr

/-- The value of `reflect.Type`: a pointer type to one of the four structs, or the
type of some other object whose informer shares the table. -/
inductive RType where
  | ptrTo (k : Kind)
  | foreign (id : Nat)
deriving DecidableEq, Repr

/-- The function `reflect.TypeOf` on an object pointer. -/
def reflect.TypeOf (obj : Object) : RType :=
  RType.ptrTo obj.kind

/-- The struct `schema.GroupResource`. -/
structure GroupResource where
  Group : String
  Resource : String
deriving DecidableEq, Repr

/-- The struct `metav1.ListOptions`. -/
structure ListOptions where
  LabelSelector : String
  FieldSelector : String
  Watch : Bool
  ResourceVersion : String
  TimeoutSeconds : Option Int
deriving DecidableEq, Repr

/-- The constant `metav1.NamespaceAll`. -/
def metav1.NamespaceAll : String := ""

/-- The constant `cache.NamespaceIndex`. -/
def cache.NamespaceIndex : String := "namespace"

/-- Index functions known to this file (`cache.IndexFunc`). -/
inductive IndexFunc where
  | MetaNamespaceIndexFunc
deriving DecidableEq, Repr

/-- The map type `cache.Indexers`, from index name to index function. -/
abbrev Indexers := List (String × IndexFunc)

/-- Handle of the remote client (`client.Interface`) held in `originClient`. -/
structure Client where
  id : Nat
deriving DecidableEq, Repr

/-- The accessor chosen on the client: `ClusterPolicies()`,
`ClusterPolicyBindings()`, `Policies(namespace)` or `PolicyBindings(namespace)`. -/
inductive Endpoint where
  | ClusterPolicies
  | ClusterPolicyBindings
  | Policies (ns : String)
  | PolicyBindings (ns : String)
deriving DecidableEq, Repr

/-- The method called on the endpoint. -/
inductive Verb where
  | List
  | Watch
deriving DecidableEq, Repr

/-- One request to the remote client: `client.<endpoint>.<verb>(options)`. -/
structure ClientCall where
  client : Client
  endpoint : Endpoint
  verb : Verb
  options : ListOptions
deriving DecidableEq, Repr

/-- The kind whose collection an endpoint serves. -/
def Endpoint.kind : Endpoint → Kind
  | Endpoint.ClusterPolicies => Kind.ClusterPolicy
  | Endpoint.ClusterPolicyBindings => Kind.ClusterPolicyBinding
  | Endpoint.Policies _ => Kind.Policy
  | Endpoint.PolicyBindings _ => Kind.PolicyBinding

/-- The namespace qualifier of an endpoint, `none` for the accessors that take no
namespace argument. -/
def Endpoint.ns : Endpoint → Option String
  | Endpoint.ClusterPolicies => none
  | Endpoint.ClusterPolicyBindings => none
  | Endpoint.Policies n => some n
  | Endpoint.PolicyBindings n => some n

/-- The struct `cache.ListWatch` with its two closures. -/
structure ListWatch where
  ListFunc : ListOptions → ClientCall
  WatchFunc : ListOptions → ClientCall

/-- A value of the interface `cache.ListerWatcher` as seen by this file: either a
source handed out by the overrides resolver, or a pointer to a `cache.ListWatch`
allocated by this file. -/
inductive ListerWatcher where
  | override (id : Nat)
  | listWatch (lw : ListWatch)

/-- Pointer to an object built by `cache.NewSharedIndexInformer`. -/
structure SharedIndexInformer where
  addr : Nat
deriving DecidableEq, Repr

/-- The arguments an informer was built with. -/
structure InformerRecord where
  lw : ListerWatcher
  objType : Object
  resyncPeriod : Int
  indexers : Indexers

/-- The indexed store owned by an informer (`cache.Indexer`). -/
structure cache.Indexer where
  owner : SharedIndexInformer
deriving DecidableEq, Repr

/-- The method `GetIndexer()` of an informer: its own store. -/
def SharedIndexInformer.GetIndexer (informer : SharedIndexInformer) : cache.Indexer :=
  ⟨informer⟩

/-- The Go map `coreInformers`. -/
abbrev Table := List (RType × SharedIndexInformer)

/-- The map read `m[k]` with the comma-ok form. -/
def Table.get (t : Table) (k : RType) : Option SharedIndexInformer :=
  List.lookup k t

/-- The map assignment `m[k] = v`. -/
def Table.set (t : Table) (k : RType) (v : SharedIndexInformer) : Table :=
  (k, v) :: t.filter (fun p => p.1 != k)

/-- The fields of `sharedInformerFactory` used by this file (the mutex `lock` is
part of the concurrent model further down). -/
structure sharedInformerFactory where
  originClient : Client
  customListerWatchers : GroupResource → Option Nat
  defaultResync : Int
  coreInformers : Table

/-- The factory together with the heap of informers and the record of the calls
made so far. -/
structure Machine where
  f : sharedInformerFactory
  heap : List InformerRecord
  resolverCalls : List GroupResource
  listWatchAllocs : Nat

/-! ## Calls that leave the file -/

/-- The call `f.customListerWatchers.GetListerWatcher(resource)`; `none` is the nil
interface value. -/
def GetListerWatcher (m : Machine) (resource : GroupResource) :
    Option ListerWatcher × Machine :=
  ((m.f.customListerWatchers resource).map ListerWatcher.override,
    { m with resolverCalls := m.resolverCalls ++ [resource] })

/-- The allocation `&cache.ListWatch{ListFunc: ..., WatchFunc: ...}`. -/
def newListWatch (m : Machine) (ListFunc WatchFunc : ListOptions → ClientCall) :
    ListerWatcher × Machine :=
  (ListerWatcher.listWatch ⟨ListFunc, WatchFunc⟩,
    { m with listWatchAllocs := m.listWatchAllocs + 1 })

/-- The call `cache.NewSharedIndexInformer(lw, objType, resync, indexers)`: a new
informer at the next free address. -/
def cache.NewSharedIndexInformer (m : Machine) (lw : ListerWatcher) (objType : Object)
    (resync : Int) (indexers : Indexers) : SharedIndexInformer × Machine :=
  (⟨m.heap.length⟩, { m with heap := m.heap ++ [⟨lw, objType, resync, indexers⟩] })

/-- The statement `f.coreInformers[informerType] = informer`. -/
def Machine.store (m : Machine) (informerType : RType) (informer : SharedIndexInformer) :
    Machine :=
  { m with f := { m.f with coreInformers := m.f.coreInformers.set informerType informer } }

/-! ## The accessors of the four kinds

`Resource` is the function `authorizationapi.Resource`, which lives outside this
file; every definition takes it as a parameter. The closures of the default source
read `f.originClient` when they run; the field is never assigned in this file, so
they are modelled with the value it has when the source is built. -/

/-- The method `(*clusterPolicyInformer).Informer`. -/
def clusterPolicyInformer.Informer (Resource : String → GroupResource) (m : Machine) :
    SharedIndexInformer × Machine :=
  let informerObj : Object := ⟨Kind.ClusterPolicy, []⟩
  let informerType := reflect.TypeOf informerObj
  match m.f.coreInformers.get informerType with
  | some informer => (informer, m)
  | none =>
    let r := GetListerWatcher m (Resource "clusterpolicies")
    let l := match r.1 with
      | some lw => (lw, r.2)
      | none =>
        newListWatch r.2
          (fun options => ⟨m.f.originClient, Endpoint.ClusterPolicies, Verb.List, options⟩)
          (fun options => ⟨m.f.originClient, Endpoint.ClusterPolicies, Verb.Watch, options⟩)
    let c := cache.NewSharedIndexInformer l.2 l.1 informerObj l.2.f.defaultResync []
    (c.1, c.2.store informerType c.1)

/-- The method `(*clusterPolicyInformer).Indexer`. -/
def clusterPolicyInformer.Indexer (Resource : String → GroupResource) (m : Machine) :
    cache.Indexer × Machine :=
  let r := clusterPolicyInformer.Informer Resource m
  (r.1.GetIndexer, r.2)

/-- The adapter struct `ocache.InformerToClusterPolicyLister`, as the composite
literal in `Lister` fills it. -/
structure InformerToClusterPolicyLister where
  SharedIndexInformer : SharedIndexInformer
deriving DecidableEq, Repr

/-- The method `(*clusterPolicyInformer).Lister`. -/
def clusterPolicyInformer.Lister (Resource : String → GroupResource) (m : Machine) :
    InformerToClusterPolicyLister × Machine :=
  let r := clusterPolicyInformer.Informer Resource m
  (⟨r.1⟩, r.2)

/-- The method `(*clusterPolicyBindingInformer).Informer`. -/
def clusterPolicyBindingInformer.Informer (Resource : String → GroupResource) (m : Machine) :
    SharedIndexInformer × Machine :=
  let informerObj : Object := ⟨Kind.ClusterPolicyBinding, []⟩
  let informerType := reflect.TypeOf informerObj
  match m.f.coreInformers.get informerType with
  | some informer => (informer, m)
  | none =>
    let r := GetListerWatcher m (Resource "clusterpolicybindings")
    let l := match r.1 with
      | some lw => (lw, r.2)
      | none =>
        newListWatch r.2
          (fun options =>
            ⟨m.f.originClient, Endpoint.ClusterPolicyBindings, Verb.List, options⟩)
          (fun options =>
            ⟨m.f.originClient, Endpoint.ClusterPolicyBindings, Verb.Watch, options⟩)
    let c := cache.NewSharedIndexInformer l.2 l.1 informerObj l.2.f.defaultResync []
    (c.1, c.2.store informerType c.1)

/-- The method `(*clusterPolicyBindingInformer).Indexer`. -/
def clusterPolicyBindingInformer.Indexer (Resource : String → GroupResource) (m : Machine) :
    cache.Indexer × Machine :=
  let r := clusterPolicyBindingInformer.Informer Resource m
  (r.1.GetIndexer, r.2)

/-- The adapter struct `ocache.InformerToClusterPolicyBindingLister`, as the
composite literal in `Lister` fills it. -/
structure InformerToClusterPolicyBindingLister where
  SharedIndexInformer : SharedIndexInformer
deriving DecidableEq, Repr

/-- The method `(*clusterPolicyBindingInformer).Lister`. -/
def clusterPolicyBindingInformer.Lister (Resource : String → GroupResource) (m : Machine) :
    InformerToClusterPolicyBindingLister × Machine :=
  let r := clusterPolicyBindingInformer.Informer Resource m
  (⟨r.1⟩, r.2)

/-- The method `(*policyInformer).Informer`. -/
def policyInformer.Informer (Resource : String → GroupResource) (m : Machine) :
    SharedIndexInformer × Machine :=
  let informerObj : Object := ⟨Kind.Policy, []⟩
  let informerType := reflect.TypeOf informerObj
  match m.f.coreInformers.get informerType with
  | some informer => (informer, m)
  | none =>
    let r := GetListerWatcher m (Resource "policies")
    let l := match r.1 with
      | some lw => (lw, r.2)
      | none =>
        newListWatch r.2
          (fun options =>
            ⟨m.f.originClient, Endpoint.Policies metav1.NamespaceAll, Verb.List, options⟩)
          (fun options =>
            ⟨m.f.originClient, Endpoint.Policies metav1.NamespaceAll, Verb.Watch, options⟩)
    let c := cache.NewSharedIndexInformer l.2 l.1 informerObj l.2.f.defaultResync
      [(cache.NamespaceIndex, IndexFunc.MetaNamespaceIndexFunc)]
    (c.1, c.2.store informerType c.1)

/-- The method `(*policyInformer).Indexer`. -/
def policyInformer.Indexer (Resource : String → GroupResource) (m : Machine) :
    cache.Indexer × Machine :=
  let r := policyInformer.Informer Resource m
  (r.1.GetIndexer, r.2)

/-- The adapter struct `ocache.InformerToPolicyNamespacer`, as the composite literal
in `Lister` fills it. -/
structure InformerToPolicyNamespacer where
  SharedIndexInformer : SharedIndexInformer
deriving DecidableEq, Repr

/-- The method `(*policyInformer).Lister`. -/
def policyInformer.Lister (Resource : String → GroupResource) (m : Machine) :
    InformerToPolicyNamespacer × Machine :=
  let r := policyInformer.Informer Resource m
  (⟨r.1⟩, r.2)

/-- The method `(*policyBindingInformer).Informer`. -/
def policyBindingInformer.Informer (Resource : String → GroupResource) (m : Machine) :
    SharedIndexInformer × Machine :=
  let informerObj : Object := ⟨Kind.PolicyBinding, []⟩
  let informerType := reflect.TypeOf informerObj
  match m.f.coreInformers.get informerType with
  | some informer => (informer, m)
  | none =>
    let r := GetListerWatcher m (Resource "policybindings")
    let l := match r.1 with
      | some lw => (lw, r.2)
      | none =>
        newListWatch r.2
          (fun options =>
            ⟨m.f.originClient, Endpoint.PolicyBindings metav1.NamespaceAll, Verb.List,
              options⟩)
          (fun options =>
            ⟨m.f.originClient, Endpoint.PolicyBindings metav1.NamespaceAll, Verb.Watch,
              options⟩)
    let c := cache.NewSharedIndexInformer l.2 l.1 informerObj l.2.f.defaultResync
      [(cache.NamespaceIndex, IndexFunc.MetaNamespaceIndexFunc)]
    (c.1, c.2.store informerType c.1)

/-- The method `(*policyBindingInformer).Indexer`. -/
def policyBindingInformer.Indexer (Resource : String → GroupResource) (m : Machine) :
    cache.Indexer × Machine :=
  let r := policyBindingInformer.Informer Resource m
  (r.1.GetIndexer, r.2)

/-- The adapter struct `ocache.InformerToPolicyBindingNamespacer`, as the composite
literal in `Lister` fills it. -/
structure InformerToPolicyBindingNamespacer where
  SharedIndexInformer : SharedIndexInformer
deriving DecidableEq, Repr

/-- The method `(*policyBindingInformer).Lister`. -/
def policyBindingInformer.Lister (Resource : String → GroupResource) (m : Machine) :
    InformerToPolicyBindingNamespacer × Machine :=
  let r := policyBindingInformer.Informer Resource m
  (⟨r.1⟩, r.2)

/-! ## The accessors indexed by kind -/

/-- The method `Informer()` of the informer type of kind `k`. -/
def Informer (Resource : String → GroupResource) :
    Kind → Machine → SharedIndexInformer × Machine
  | Kind.ClusterPolicy => clusterPolicyInformer.Informer Resource
  | Kind.ClusterPolicyBinding => clusterPolicyBindingInformer.Informer Resource
  | Kind.Policy => policyInformer.Informer Resource
  | Kind.PolicyBinding => policyBindingInformer.Informer Resource

/-- The method `Indexer()` of the informer type of kind `k`. -/
def Indexer (Resource : String → GroupResource) : Kind → Machine → cache.Indexer × Machine
  | Kind.ClusterPolicy => clusterPolicyInformer.Indexer Resource
  | Kind.ClusterPolicyBinding => clusterPolicyBindingInformer.Indexer Resource
  | Kind.Policy => policyInformer.Indexer Resource
  | Kind.PolicyBinding => policyBindingInformer.Indexer Resource

/-- The four adapter types under one roof. -/
inductive ListerAdapter where
  | clusterPolicy (l : InformerToClusterPolicyLister)
  | clusterPolicyBinding (l : InformerToClusterPolicyBindingLister)
  | policy (l : InformerToPolicyNamespacer)
  | policyBinding (l : InformerToPolicyBindingNamespacer)
deriving DecidableEq, Repr

/-- The fields of an adapter, in declaration order. -/
def ListerAdapter.fieldValues : ListerAdapter → List SharedIndexInformer
  | ListerAdapter.clusterPolicy l => [l.SharedIndexInformer]
  | ListerAdapter.clusterPolicyBinding l => [l.SharedIndexInformer]
  | ListerAdapter.policy l => [l.SharedIndexInformer]
  | ListerAdapter.policyBinding l => [l.SharedIndexInformer]

/-- The adapter of kind `k` around an informer. -/
def ListerAdapter.wrap (k : Kind) (informer : SharedIndexInformer) : ListerAdapter :=
  match k with
  | Kind.ClusterPolicy => ListerAdapter.clusterPolicy ⟨informer⟩
  | Kind.ClusterPolicyBinding => ListerAdapter.clusterPolicyBinding ⟨informer⟩
  | Kind.Policy => ListerAdapter.policy ⟨informer⟩
  | Kind.PolicyBinding => ListerAdapter.policyBinding ⟨informer⟩

/-- The kind an adapter serves. -/
def ListerAdapter.kind : ListerAdapter → Kind
  | ListerAdapter.clusterPolicy _ => Kind.ClusterPolicy
  | ListerAdapter.clusterPolicyBinding _ => Kind.ClusterPolicyBinding
  | ListerAdapter.policy _ => Kind.Policy
  | ListerAdapter.policyBinding _ => Kind.PolicyBinding

/-- The method `Lister()` of the informer type of kind `k`. -/
def Lister (Resource : String → GroupResource) (k : Kind) (m : Machine) :
    ListerAdapter × Machine :=
  match k with
  | Kind.ClusterPolicy =>
    let r := clusterPolicyInformer.Lister Resource m
    (ListerAdapter.clusterPolicy r.1, r.2)
  | Kind.ClusterPolicyBinding =>
    let r := clusterPolicyBindingInformer.Lister Resource m
    (ListerAdapter.clusterPolicyBinding r.1, r.2)
  | Kind.Policy =>
    let r := policyInformer.Lister Resource m
    (ListerAdapter.policy r.1, r.2)
  | Kind.PolicyBinding =>
    let r := policyBindingInformer.Lister Resource m
    (ListerAdapter.policyBinding r.1, r.2)

/-- The table key of kind `k`: the runtime type of the object `Informer()` builds. -/
def keyOf (k : Kind) : RType :=
  reflect.TypeOf ⟨k, []⟩

/-- The resource name `Informer()` of kind `k` passes to the overrides resolver. -/
def resourceName : Kind → String
  | Kind.ClusterPolicy => "clusterpolicies"
  | Kind.ClusterPolicyBinding => "clusterpolicybindings"
  | Kind.Policy => "policies"
  | Kind.PolicyBinding => "policybindings"

/-- One operation of this file. -/
inductive Op where
  | Informer (k : Kind)
  | Indexer (k : Kind)
  | Lister (k : Kind)
deriving DecidableEq, Repr

/-- The state after one operation (its result dropped). -/
def Op.exec (Resource : String → GroupResource) (m : Machine) : Op → Machine
  | Op.Informer k => (Shared.Informer Resource k m).2
  | Op.Indexer k => (Shared.Indexer Resource k m).2
  | Op.Lister k => (Shared.Lister Resource k m).2

/-- The state after a sequence of operations, run one after the other. -/
def run (Resource : String → GroupResource) (ops : List Op) (m : Machine) : Machine :=
  ops.foldl (Op.exec Resource) m

/-- The states of N successive `Informer()` calls of kind `k`: the result of each
call paired with the state it leaves. -/
def calls (Resource : String → GroupResource) (k : Kind) :
    Nat → Machine → List (SharedIndexInformer × Machine)
  | 0, _ => []
  | n + 1, m =>
    let r := Informer Resource k m
    r :: calls Resource k n r.2

/-! ## Observations on states -/

/-- The record behind an informer pointer, if the pointer is allocated. -/
def Machine.deref (m : Machine) (informer : SharedIndexInformer) : Option InformerRecord :=
  m.heap[informer.addr]?

/-- Number of informers in the heap that were built for objects of kind `k`. -/
def Machine.built (m : Machine) (k : Kind) : Nat :=
  (m.heap.filter (fun r => decide (r.objType.kind = k))).length

/-- Cluster-scoped kinds; the other two are namespace-scoped. -/
def Kind.clusterScoped : Kind → Bool
  | Kind.ClusterPolicy => true
  | Kind.ClusterPolicyBinding => true
  | Kind.Policy => false
  | Kind.PolicyBinding => false

/-! ## Summary of `Informer()`

One closed form for the four methods, used by the proofs below; it is shown equal
to each method in `Informer_eq_getOrCreate`. -/

/-- The endpoint the default source of kind `k` calls. -/
def defaultEndpoint : Kind → Endpoint
  | Kind.ClusterPolicy => Endpoint.ClusterPolicies
  | Kind.ClusterPolicyBinding => Endpoint.ClusterPolicyBindings
  | Kind.Policy => Endpoint.Policies metav1.NamespaceAll
  | Kind.PolicyBinding => Endpoint.PolicyBindings metav1.NamespaceAll

/-- The index set `Informer()` of kind `k` passes to the constructor. -/
def defaultIndexers : Kind → Indexers
  | Kind.ClusterPolicy => []
  | Kind.ClusterPolicyBinding => []
  | Kind.Policy => [(cache.NamespaceIndex, IndexFunc.MetaNamespaceIndexFunc)]
  | Kind.PolicyBinding => [(cache.NamespaceIndex, IndexFunc.MetaNamespaceIndexFunc)]

/-- The source chosen when the table has no entry for `k`. -/
def chosenSource (Resource : String → GroupResource) (k : Kind) (m : Machine) :
    ListerWatcher :=
  match m.f.customListerWatchers (Resource (resourceName k)) with
  | some id => ListerWatcher.override id
  | none =>
    ListerWatcher.listWatch
      ⟨fun options => ⟨m.f.originClient, defaultEndpoint k, Verb.List, options⟩,
        fun options => ⟨m.f.originClient, defaultEndpoint k, Verb.Watch, options⟩⟩

/-- The state after a construction for kind `k`. -/
def afterCreate (Resource : String → GroupResource) (k : Kind) (m : Machine) : Machine :=
  { f := { m.f with coreInformers := m.f.coreInformers.set (keyOf k) ⟨m.heap.length⟩ }
    heap := m.heap ++ [⟨chosenSource Resource k m, ⟨k, []⟩, m.f.defaultResync,
      defaultIndexers k⟩]
    resolverCalls := m.resolverCalls ++ [Resource (resourceName k)]
    listWatchAllocs :=
      match m.f.customListerWatchers (Resource (resourceName k)) with
      | some _ => m.listWatchAllocs
      | none => m.listWatchAllocs + 1 }

/-- Closed form of `Informer()` for kind `k`. -/
def getOrCreate (Resource : String → GroupResource) (k : Kind) (m : Machine) :
    SharedIndexInformer × Machine :=
  match m.f.coreInformers.get (keyOf k) with
  | some informer => (informer, m)
  | none => (⟨m.heap.length⟩, afterCreate Resource k m)

/-! ## Invariants of the sequential runs -/

/-- The constructions of a run: the heap grows by `new`, with at most one record
per kind, and a kind with no table entry has no record yet. -/
def GrowsBy (m0 m : Machine) (new : List InformerRecord) : Prop :=
  m.heap = m0.heap ++ new ∧
    ∀ k, (new.filter (fun r => decide (r.objType.kind = k))).length ≤ 1 ∧
      (m.f.coreInformers.get (keyOf k) = none →
        (new.filter (fun r => decide (r.objType.kind = k))).length = 0)

/-- The table invariant: every entry points to an allocated informer, and distinct
keys hold distinct instances. -/
def Machine.WellFormed (m : Machine) : Prop :=
  (∀ key v, m.f.coreInformers.get key = some v → v.addr < m.heap.length) ∧
  (∀ key1 key2 v, key1 ≠ key2 → m.f.coreInformers.get key1 = some v →
    m.f.coreInformers.get key2 ≠ some v)

/-- The entries of two kinds are apart: the entry under the key of `k2`, if there is
one, is an allocated informer and is not the entry under the key of `k1`. -/
def Machine.Apart (m : Machine) (k1 k2 : Kind) : Prop :=
  ∀ v, m.f.coreInformers.get (keyOf k2) = some v →
    v.addr < m.heap.length ∧ m.f.coreInformers.get (keyOf k1) ≠ some v

/-! ## Concurrent callers

Several goroutines call `Informer()` on one factory. Each call is a thread with a
program counter; a scheduler picks, step after step, the thread that moves. The
mutex `f.lock` is a boolean of the shared state: `Lock()` can only be taken while
it is false and blocks otherwise, and the deferred `Unlock()` runs as the last step
of the call. One step is one statement of the method body. The statements of kind
`k` are written once, over the per-kind constants of the summary above;
`solo_call` shows that a call running alone is the method of the source. -/

/-- Program counter and locals of one `Informer()` call. -/
inductive Thread where
  /-- Before `f.lock.Lock()`. -/
  | start
  /-- Holding the lock, before the table read. -/
  | locked
  /-- No entry was found; before the call of `GetListerWatcher`. -/
  | resolve
  /-- Before the test `lw == nil`. -/
  | choose (lw : Option ListerWatcher)
  /-- Before the call of `cache.NewSharedIndexInformer`. -/
  | construct (lw : ListerWatcher)
  /-- Before the table assignment. -/
  | store (informer : SharedIndexInformer)
  /-- At `return informer`, before the deferred `f.lock.Unlock()`. -/
  | unlock (informer : SharedIndexInformer)
  /-- Returned `informer`. -/
  | done (informer : SharedIndexInformer)

/-- The thread is between `Lock()` and `Unlock()`. -/
def Thread.inside : Thread → Bool
  | Thread.start => false
  | Thread.done _ => false
  | _ => true

/-- The call has returned. -/
def Thread.isDone : Thread → Bool
  | Thread.done _ => true
  | _ => false

/-- The value a returned call returned. -/
def Thread.result : Thread → Option SharedIndexInformer
  | Thread.done informer => some informer
  | _ => none

/-- One statement of `Informer()` of kind `k`, on the shared machine and lock:
the next program counter, machine and lock, or `none` when the thread cannot move
(it waits for the lock, or it has returned). -/
def Thread.step (Resource : String → GroupResource) (k : Kind) (pc : Thread) (m : Machine)
    (lock : Bool) : Option (Thread × Machine × Bool) :=
  match pc with
  | Thread.start => if lock then none else some (Thread.locked, m, true)
  | Thread.locked =>
    match m.f.coreInformers.get (keyOf k) with
    | some informer => some (Thread.unlock informer, m, lock)
    | none => some (Thread.resolve, m, lock)
  | Thread.resolve =>
    let r := GetListerWatcher m (Resource (resourceName k))
    some (Thread.choose r.1, r.2, lock)
  | Thread.choose (some lw) => some (Thread.construct lw, m, lock)
  | Thread.choose none =>
    let l := newListWatch m
      (fun options => ⟨m.f.originClient, defaultEndpoint k, Verb.List, options⟩)
      (fun options => ⟨m.f.originClient, defaultEndpoint k, Verb.Watch, options⟩)
    some (Thread.construct l.1, l.2, lock)
  | Thread.construct lw =>
    let c := cache.NewSharedIndexInformer m lw ⟨k, []⟩ m.f.defaultResync (defaultIndexers k)
    some (Thread.store c.1, c.2, lock)
  | Thread.store informer => some (Thread.unlock informer, m.store (keyOf k) informer, lock)
  | Thread.unlock informer => some (Thread.done informer, m, false)
  | Thread.done _ => none

/-- The shared machine, the mutex and the calls in flight, each with its kind. -/
structure Config where
  m : Machine
  lock : Bool
  threads : List (Kind × Thread)

/-- The scheduler lets thread `i` make one step; nothing happens when the thread
cannot move or does not exist. -/
def Config.step (Resource : String → GroupResource) (c : Config) (i : Nat) : Config :=
  match c.threads[i]? with
  | none => c
  | some (k, pc) =>
    match pc.step Resource k c.m c.lock with
    | none => c
    | some (pc2, m2, lock2) => ⟨m2, lock2, c.threads.set i (k, pc2)⟩

/-- An interleaving: the threads move in the order the schedule names them. -/
def Config.run (Resource : String → GroupResource) (sched : List Nat) (c : Config) : Config :=
  sched.foldl (Config.step Resource) c

/-- All callers about to call `Informer()`, the mutex free. -/
def Config.init (m0 : Machine) (ks : List Kind) : Config :=
  ⟨m0, false, ks.map (fun k => (k, Thread.start))⟩

/-- Every call has returned. -/
def Config.allDone (c : Config) : Bool :=
  c.threads.all (fun t => t.2.isDone)

/-- The results of the calls, `none` for a call that has not returned. -/
def Config.results (c : Config) : List (Option SharedIndexInformer) :=
  c.threads.map (fun t => t.2.result)

/-- What the rest of the call of a thread inside the lock returns and leaves, when
it runs alone. -/
def Thread.finish (Resource : String → GroupResource) (k : Kind) (pc : Thread) (m : Machine) :
    SharedIndexInformer × Machine :=
  match pc with
  | Thread.start => Informer Resource k m
  | Thread.locked => Informer Resource k m
  | Thread.resolve => (⟨m.heap.length⟩, afterCreate Resource k m)
  | Thread.choose (some lw) =>
    (⟨m.heap.length⟩,
      ({ m with heap := m.heap ++ [⟨lw, ⟨k, []⟩, m.f.defaultResync, defaultIndexers k⟩] }
        : Machine).store (keyOf k) ⟨m.heap.length⟩)
  | Thread.choose none =>
    (⟨m.heap.length⟩,
      ({ m with
          heap := m.heap ++ [⟨ListerWatcher.listWatch
            ⟨fun options => ⟨m.f.originClient, defaultEndpoint k, Verb.List, options⟩,
              fun options => ⟨m.f.originClient, defaultEndpoint k, Verb.Watch, options⟩⟩,
            ⟨k, []⟩, m.f.defaultResync, defaultIndexers k⟩]
          listWatchAllocs := m.listWatchAllocs + 1 } : Machine).store (keyOf k)
        ⟨m.heap.length⟩)
  | Thread.construct lw =>
    (⟨m.heap.length⟩,
      ({ m with heap := m.heap ++ [⟨lw, ⟨k, []⟩, m.f.defaultResync, defaultIndexers k⟩] }
        : Machine).store (keyOf k) ⟨m.heap.length⟩)
  | Thread.store informer => (informer, m.store (keyOf k) informer)
  | Thread.unlock informer => (informer, m)
  | Thread.done informer => (informer, m)

/-- The machine after the calls of `hist` ran one after the other. -/
def replay (Resource : String → GroupResource) (hist : List Kind) (m0 : Machine) : Machine :=
  run Resource (hist.map Op.Informer) m0

/-- The thread has not yet taken the lock. -/
def Thread.isStart : Thread → Bool
  | Thread.start => true
  | _ => false

/-- The invariant of the interleavings from `Config.init m0 ks`: the kinds of the
threads are `ks`; `hist` lists the kinds of the calls in the order in which they
took the lock; the mutex is held exactly while one thread is inside; the machine,
once the thread inside has finished, is the machine after the calls of `hist` ran
one after the other; and every call that has returned, or is inside, returned or
will return the table entry of its kind. -/
structure Inv (Resource : String → GroupResource) (m0 : Machine) (ks : List Kind)
    (c : Config) (hist : List Kind) : Prop where
  kinds : c.threads.map Prod.fst = ks
  hist_kinds : ∀ k ∈ hist, k ∈ ks
  hist_ne : (∃ t ∈ c.threads, t.2.isStart = false) → hist ≠ []
  free : c.lock = false →
    (∀ t ∈ c.threads, t.2.inside = false) ∧ c.m = replay Resource hist m0
  held : c.lock = true →
    ∃ (i : Nat) (k : Kind) (pc : Thread), c.threads[i]? = some (k, pc) ∧ pc.inside = true ∧
      (∀ (j : Nat) (t : Kind × Thread), j ≠ i → c.threads[j]? = some t →
        t.2.inside = false) ∧
      (pc.finish Resource k c.m).2 = replay Resource hist m0 ∧
      (replay Resource hist m0).f.coreInformers.get (keyOf k)
        = some (pc.finish Resource k c.m).1
  done : ∀ t ∈ c.threads, ∀ i, t.2.result = some i →
    (replay Resource hist m0).f.coreInformers.get (keyOf t.1) = some i

/-- Statements a call still has to execute, at most. -/
def Thread.remaining : Thread → Nat
  | Thread.start => 7
  | Thread.locked => 6
  | Thread.resolve => 5
  | Thread.choose _ => 4
  | Thread.construct _ => 3
  | Thread.store _ => 2
  | Thread.unlock _ => 1
  | Thread.done _ => 0

/-- Statements the calls in flight still have to execute, at most. -/
def Config.remaining (c : Config) : Nat :=
  (c.threads.map (fun t => t.2.remaining)).sum

/-! ## Concrete states used as witnesses -/

/-- A resource function: the legacy group with the given resource name. -/
def sampleResource (resource : String) : GroupResource :=
  ⟨"", resource⟩

/-- A registry with an empty table, no overrides and an empty heap. -/
def emptyMachine : Machine :=
  ⟨⟨⟨7⟩, fun _ => none, 600, []⟩, [], [], 0⟩

/-- A registry with an empty table and an override registered for policies. -/
def overrideMachine : Machine :=
  ⟨⟨⟨7⟩, fun r => if r.Resource = "policies" then some 42 else none, 600, []⟩, [], [], 0⟩

/-- A registry whose table already holds the policy informer at address 0. -/
def policyMachine : Machine :=
  ⟨⟨⟨7⟩, fun _ => none, 600, [(keyOf Kind.Policy, ⟨0⟩)]⟩,
    [⟨ListerWatcher.override 1, ⟨Kind.Policy, []⟩, 600, []⟩], [], 0⟩

/-- A schedule for fifty callers: every caller first tries to take the lock, then
the callers run in turn, seven steps each. -/
def raceSchedule : List Nat :=
  List.range 50 ++ (List.range 50).flatMap (fun i => List.replicate 7 i)

/-! ## Lemmas on the table -/

theorem table_get_set_self (t : Table) (k : RType) (v : SharedIndexInformer) :
    (t.set k v).get k = some v := by
  simp [Table.get, Table.set, List.lookup]

theorem table_get_filter_ne (t : Table) (k k2 : RType) (h : k2 ≠ k) :
    List.lookup k2 (t.filter (fun p => p.1 != k)) = List.lookup k2 t := by
  induction t with
  | nil => rfl
  | cons p t ih =>
    obtain ⟨a, b⟩ := p
    by_cases hak : a = k
    · subst hak
      have h1 : (k2 == a) = false := by simpa using h
      simp [List.filter, List.lookup, h1, ih]
    · have h2 : (a != k) = true := by simpa using hak
      simp only [List.filter, h2, List.lookup]
      cases hk : (k2 == a) <;> simp [ih]

theorem table_get_set_ne (t : Table) (k k2 : RType) (v : SharedIndexInformer)
    (h : k2 ≠ k) : (t.set k v).get k2 = t.get k2 := by
  have h1 : (k2 == k) = false := by simpa using h
  simp [Table.get, Table.set, List.lookup, h1, table_get_filter_ne t k k2 h]

/-! ## Lemmas on the accessors -/

theorem Informer_eq_getOrCreate (Resource : String → GroupResource) (k : Kind)
    (m : Machine) : Informer Resource k m = getOrCreate Resource k m := by
  cases k <;>
    simp only [Informer, clusterPolicyInformer.Informer,
      clusterPolicyBindingInformer.Informer, policyInformer.Informer,
      policyBindingInformer.Informer, getOrCreate, keyOf] <;>
    split <;> try rfl
  all_goals
    simp only [afterCreate, chosenSource, GetListerWatcher, newListWatch,
      cache.NewSharedIndexInformer, Machine.store, resourceName, defaultEndpoint,
      defaultIndexers, keyOf]
    cases m.f.customListerWatchers (Resource _) <;> rfl

theorem Informer_hit (Resource : String → GroupResource) (k : Kind) (m : Machine)
    (i : SharedIndexInformer) (h : m.f.coreInformers.get (keyOf k) = some i) :
    Informer Resource k m = (i, m) := by
  simp [Informer_eq_getOrCreate, getOrCreate, h]

theorem Informer_miss (Resource : String → GroupResource) (k : Kind) (m : Machine)
    (h : m.f.coreInformers.get (keyOf k) = none) :
    Informer Resource k m = (⟨m.heap.length⟩, afterCreate Resource k m) := by
  simp [Informer_eq_getOrCreate, getOrCreate, h]

theorem afterCreate_get_self (Resource : String → GroupResource) (k : Kind) (m : Machine) :
    (afterCreate Resource k m).f.coreInformers.get (keyOf k) = some ⟨m.heap.length⟩ := by
  simp [afterCreate, table_get_set_self]

theorem Informer_get_self (Resource : String → GroupResource) (k : Kind) (m : Machine) :
    (Informer Resource k m).2.f.coreInformers.get (keyOf k)
      = some (Informer Resource k m).1 := by
  cases h : m.f.coreInformers.get (keyOf k) with
  | some i => simp [Informer_hit Resource k m i h, h]
  | none => simp [Informer_miss Resource k m h, afterCreate_get_self]

theorem Informer_again (Resource : String → GroupResource) (k : Kind) (m : Machine) :
    Informer Resource k (Informer Resource k m).2 = Informer Resource k m := by
  have h := Informer_get_self Resource k m
  rw [Informer_hit Resource k _ _ h]

theorem Indexer_eq (Resource : String → GroupResource) (k : Kind) (m : Machine) :
    Indexer Resource k m
      = ((Informer Resource k m).1.GetIndexer, (Informer Resource k m).2) := by
  cases k <;> rfl

theorem Lister_state (Resource : String → GroupResource) (k : Kind) (m : Machine) :
    (Lister Resource k m).2 = (Informer Resource k m).2 := by
  cases k <;> rfl

theorem Lister_fields (Resource : String → GroupResource) (k : Kind) (m : Machine) :
    (Lister Resource k m).1.fieldValues = [(Informer Resource k m).1] := by
  cases k <;> rfl

theorem Lister_eq (Resource : String → GroupResource) (k : Kind) (m : Machine) :
    Lister Resource k m
      = (ListerAdapter.wrap k (Informer Resource k m).1, (Informer Resource k m).2) := by
  cases k <;> rfl

theorem Lister_kind (Resource : String → GroupResource) (k : Kind) (m : Machine) :
    (Lister Resource k m).1.kind = k := by
  cases k <;> rfl

theorem exec_eq (Resource : String → GroupResource) (m : Machine) (op : Op) :
    ∃ k, op.exec Resource m = (Informer Resource k m).2 := by
  cases op with
  | Informer k => exact ⟨k, rfl⟩
  | Indexer k => exact ⟨k, by simp [Op.exec, Indexer_eq]⟩
  | Lister k => exact ⟨k, by simp [Op.exec, Lister_state]⟩

theorem Informer_keeps (Resource : String → GroupResource) (k : Kind) (m : Machine)
    (key : RType) (v : SharedIndexInformer) (h : m.f.coreInformers.get key = some v) :
    (Informer Resource k m).2.f.coreInformers.get key = some v := by
  cases hk : m.f.coreInformers.get (keyOf k) with
  | some i => simpa [Informer_hit Resource k m i hk] using h
  | none =>
    have hne : key ≠ keyOf k := by
      intro e
      rw [e, hk] at h
      cases h
    simp [Informer_miss Resource k m hk, afterCreate, table_get_set_ne _ _ _ _ hne, h]

theorem Informer_frame (Resource : String → GroupResource) (k : Kind) (m : Machine)
    (key : RType) (h : key ≠ keyOf k) :
    (Informer Resource k m).2.f.coreInformers.get key = m.f.coreInformers.get key := by
  cases hk : m.f.coreInformers.get (keyOf k) with
  | some i => simp [Informer_hit Resource k m i hk]
  | none => simp [Informer_miss Resource k m hk, afterCreate, table_get_set_ne _ _ _ _ h]

theorem keyOf_injective (k1 k2 : Kind) (h : keyOf k1 = keyOf k2) : k1 = k2 := by
  simpa [keyOf, reflect.TypeOf] using h

theorem Informer_heap (Resource : String → GroupResource) (k : Kind) (m : Machine) :
    (Informer Resource k m).2.heap =
      match m.f.coreInformers.get (keyOf k) with
      | some _ => m.heap
      | none => m.heap ++ [⟨chosenSource Resource k m, ⟨k, []⟩, m.f.defaultResync,
          defaultIndexers k⟩] := by
  cases hk : m.f.coreInformers.get (keyOf k) with
  | some i => simp [Informer_hit Resource k m i hk]
  | none => simp [Informer_miss Resource k m hk, afterCreate]

theorem Informer_deref_new (Resource : String → GroupResource) (k : Kind) (m : Machine)
    (h : m.f.coreInformers.get (keyOf k) = none) :
    (Informer Resource k m).2.deref (Informer Resource k m).1
      = some ⟨chosenSource Resource k m, ⟨k, []⟩, m.f.defaultResync, defaultIndexers k⟩ := by
  simp [Informer_miss Resource k m h, afterCreate, Machine.deref]

/-! ## Lemmas on runs -/

theorem GrowsBy_Informer (Resource : String → GroupResource) (k : Kind) (m0 m : Machine)
    (new : List InformerRecord) (h : GrowsBy m0 m new) :
    ∃ new2, GrowsBy m0 (Informer Resource k m).2 new2 := by
  cases hk : m.f.coreInformers.get (keyOf k) with
  | some i =>
    refine ⟨new, ?_⟩
    simpa [Informer_hit Resource k m i hk] using h
  | none =>
    refine ⟨new ++ [⟨chosenSource Resource k m, ⟨k, []⟩, m.f.defaultResync,
      defaultIndexers k⟩], ?_, ?_⟩
    · simp [Informer_miss Resource k m hk, afterCreate, h.1]
    · intro k2
      by_cases e : k2 = k
      · subst e
        have h0 := (h.2 k2).2 hk
        refine ⟨?_, ?_⟩
        · simp [List.filter_append, h0]
        · intro hn
          rw [Informer_get_self] at hn
          cases hn
      · have hne : keyOf k2 ≠ keyOf k := fun c => e (keyOf_injective _ _ c)
        have hk2 : ¬ (k = k2) := fun c => e c.symm
        refine ⟨?_, ?_⟩
        · simpa [List.filter_append, hk2] using (h.2 k2).1
        · intro hn
          rw [Informer_frame Resource k m _ hne] at hn
          simpa [List.filter_append, hk2] using (h.2 k2).2 hn

theorem GrowsBy_run (Resource : String → GroupResource) (ops : List Op) :
    ∀ (m0 m : Machine) (new : List InformerRecord), GrowsBy m0 m new →
      ∃ new2, GrowsBy m0 (run Resource ops m) new2 := by
  induction ops with
  | nil => intro m0 m new h; exact ⟨new, h⟩
  | cons op ops ih =>
    intro m0 m new h
    obtain ⟨k, hk⟩ := exec_eq Resource m op
    obtain ⟨new1, h1⟩ := GrowsBy_Informer Resource k m0 m new h
    have := ih m0 (op.exec Resource m) new1 (by rw [hk]; exact h1)
    simpa [run] using this

theorem GrowsBy_start (m : Machine) : GrowsBy m m [] := by
  refine ⟨by simp, fun k => ?_⟩
  simp

/-! ## The table invariant -/

theorem WellFormed_empty (m : Machine) (h : m.f.coreInformers = []) : m.WellFormed := by
  constructor
  · intro key v hv
    simp [h, Table.get] at hv
  · intro key1 key2 v _ hv
    simp [h, Table.get] at hv

theorem WellFormed_Informer (Resource : String → GroupResource) (k : Kind) (m : Machine)
    (h : m.WellFormed) : (Informer Resource k m).2.WellFormed := by
  cases hk : m.f.coreInformers.get (keyOf k) with
  | some i => simpa [Informer_hit Resource k m i hk] using h
  | none =>
    have hlen : (Informer Resource k m).2.heap.length = m.heap.length + 1 := by
      simp [Informer_heap, hk]
    have hself := Informer_get_self Resource k m
    have hnew : (Informer Resource k m).1 = ⟨m.heap.length⟩ := by
      simp [Informer_miss Resource k m hk]
    constructor
    · intro key v hv
      rw [hlen]
      by_cases e : key = keyOf k
      · rw [e, hself, hnew] at hv
        cases hv
        exact Nat.lt_succ_self _
      · rw [Informer_frame Resource k m key e] at hv
        exact Nat.lt_succ_of_lt (h.1 key v hv)
    · intro key1 key2 v hne h1 h2
      by_cases e1 : key1 = keyOf k
      · have e2 : key2 ≠ keyOf k := fun c => hne (e1.trans c.symm)
        rw [e1, hself, hnew] at h1
        rw [Informer_frame Resource k m key2 e2] at h2
        cases h1
        exact Nat.lt_irrefl _ (h.1 key2 _ h2)
      · rw [Informer_frame Resource k m key1 e1] at h1
        by_cases e2 : key2 = keyOf k
        · rw [e2, hself, hnew] at h2
          cases h2
          exact Nat.lt_irrefl _ (h.1 key1 _ h1)
        · rw [Informer_frame Resource k m key2 e2] at h2
          exact h.2 key1 key2 v hne h1 h2

theorem WellFormed_run (Resource : String → GroupResource) (ops : List Op) :
    ∀ m : Machine, m.WellFormed → (run Resource ops m).WellFormed := by
  induction ops with
  | nil => intro m h; exact h
  | cons op ops ih =>
    intro m h
    obtain ⟨k, hk⟩ := exec_eq Resource m op
    have h1 : (op.exec Resource m).WellFormed := by
      rw [hk]
      exact WellFormed_Informer Resource k m h
    simpa [run] using ih _ h1

theorem Apart_of_wellFormed (k1 k2 : Kind) (m : Machine) (hne : k1 ≠ k2)
    (h : m.WellFormed) : m.Apart k1 k2 := by
  have hkey : keyOf k2 ≠ keyOf k1 := fun c => hne (keyOf_injective _ _ c).symm
  intro v hv
  exact ⟨h.1 _ v hv, h.2 _ _ v hkey hv⟩

theorem Informer_fst_of_apart (Resource : String → GroupResource) (k1 k2 : Kind)
    (m : Machine) (h : m.Apart k1 k2) :
    m.f.coreInformers.get (keyOf k2) ≠ some (Informer Resource k1 m).1 := by
  intro h2
  cases hk : m.f.coreInformers.get (keyOf k1) with
  | some i =>
    rw [Informer_hit Resource k1 m i hk] at h2
    exact (h i h2).2 hk
  | none =>
    rw [Informer_miss Resource k1 m hk] at h2
    exact Nat.lt_irrefl _ (h _ h2).1

theorem chosenSource_some (Resource : String → GroupResource) (k : Kind) (m : Machine)
    (id : Nat) (h : m.f.customListerWatchers (Resource (resourceName k)) = some id) :
    chosenSource Resource k m = ListerWatcher.override id := by
  simp [chosenSource, h]

theorem chosenSource_none (Resource : String → GroupResource) (k : Kind) (m : Machine)
    (h : m.f.customListerWatchers (Resource (resourceName k)) = none) :
    chosenSource Resource k m = ListerWatcher.listWatch
      ⟨fun options => ⟨m.f.originClient, defaultEndpoint k, Verb.List, options⟩,
        fun options => ⟨m.f.originClient, defaultEndpoint k, Verb.Watch, options⟩⟩ := by
  simp [chosenSource, h]

/-! ## Lemmas on interleavings -/

theorem thread_finish_step (Resource : String → GroupResource) (k : Kind) (pc pc2 : Thread)
    (m m2 : Machine) (lock lock2 : Bool) (hin : pc.inside = true)
    (h : pc.step Resource k m lock = some (pc2, m2, lock2)) :
    pc2.finish Resource k m2 = pc.finish Resource k m := by
  cases pc with
  | start => simp [Thread.inside] at hin
  | done i => simp [Thread.inside] at hin
  | locked =>
    simp only [Thread.step] at h
    cases hk : m.f.coreInformers.get (keyOf k) with
    | some i =>
      simp only [hk, Option.some.injEq, Prod.mk.injEq] at h
      obtain ⟨rfl, rfl, rfl⟩ := h
      simp [Thread.finish, Informer_hit Resource k m i hk]
    | none =>
      simp only [hk, Option.some.injEq, Prod.mk.injEq] at h
      obtain ⟨rfl, rfl, rfl⟩ := h
      simp [Thread.finish, Informer_miss Resource k m hk]
  | resolve =>
    simp only [Thread.step, Option.some.injEq, Prod.mk.injEq] at h
    obtain ⟨rfl, rfl, rfl⟩ := h
    simp only [GetListerWatcher]
    cases hr : m.f.customListerWatchers (Resource (resourceName k)) <;>
      simp [Thread.finish, afterCreate, chosenSource, hr, Machine.store]
  | choose lw =>
    cases lw with
    | some l =>
      simp only [Thread.step, Option.some.injEq, Prod.mk.injEq] at h
      obtain ⟨rfl, rfl, rfl⟩ := h
      rfl
    | none =>
      simp only [Thread.step, Option.some.injEq, Prod.mk.injEq] at h
      obtain ⟨rfl, rfl, rfl⟩ := h
      rfl
  | construct lw =>
    simp only [Thread.step, Option.some.injEq, Prod.mk.injEq] at h
    obtain ⟨rfl, rfl, rfl⟩ := h
    rfl
  | store i =>
    simp only [Thread.step, Option.some.injEq, Prod.mk.injEq] at h
    obtain ⟨rfl, rfl, rfl⟩ := h
    rfl
  | unlock i =>
    simp only [Thread.step, Option.some.injEq, Prod.mk.injEq] at h
    obtain ⟨rfl, rfl, rfl⟩ := h
    rfl

theorem thread_step_cases (Resource : String → GroupResource) (k : Kind) (pc pc2 : Thread)
    (m m2 : Machine) (lock lock2 : Bool)
    (h : pc.step Resource k m lock = some (pc2, m2, lock2)) :
    (pc = Thread.start ∧ lock = false ∧ pc2 = Thread.locked ∧ m2 = m ∧ lock2 = true) ∨
    (pc.inside = true ∧ pc2.inside = true ∧ lock2 = lock) ∨
    (∃ i, pc = Thread.unlock i ∧ pc2 = Thread.done i ∧ m2 = m ∧ lock2 = false) := by
  cases pc with
  | start =>
    cases lock <;> simp [Thread.step] at h
    obtain ⟨rfl, rfl, rfl⟩ := h
    exact Or.inl ⟨rfl, rfl, rfl, rfl, rfl⟩
  | done i => simp [Thread.step] at h
  | locked =>
    simp only [Thread.step] at h
    cases hk : m.f.coreInformers.get (keyOf k) <;>
      simp only [hk, Option.some.injEq, Prod.mk.injEq] at h <;>
      obtain ⟨rfl, rfl, rfl⟩ := h <;>
      exact Or.inr (Or.inl ⟨rfl, rfl, rfl⟩)
  | resolve =>
    simp only [Thread.step, Option.some.injEq, Prod.mk.injEq] at h
    obtain ⟨rfl, rfl, rfl⟩ := h
    exact Or.inr (Or.inl ⟨rfl, rfl, rfl⟩)
  | choose lw =>
    cases lw <;>
      simp only [Thread.step, Option.some.injEq, Prod.mk.injEq] at h <;>
      obtain ⟨rfl, rfl, rfl⟩ := h <;>
      exact Or.inr (Or.inl ⟨rfl, rfl, rfl⟩)
  | construct lw =>
    simp only [Thread.step, Option.some.injEq, Prod.mk.injEq] at h
    obtain ⟨rfl, rfl, rfl⟩ := h
    exact Or.inr (Or.inl ⟨rfl, rfl, rfl⟩)
  | store i =>
    simp only [Thread.step, Option.some.injEq, Prod.mk.injEq] at h
    obtain ⟨rfl, rfl, rfl⟩ := h
    exact Or.inr (Or.inl ⟨rfl, rfl, rfl⟩)
  | unlock i =>
    simp only [Thread.step, Option.some.injEq, Prod.mk.injEq] at h
    obtain ⟨rfl, rfl, rfl⟩ := h
    exact Or.inr (Or.inr ⟨i, rfl, rfl, rfl, rfl⟩)

theorem replay_snoc (Resource : String → GroupResource) (hist : List Kind) (k : Kind)
    (m0 : Machine) :
    replay Resource (hist ++ [k]) m0 = (Informer Resource k (replay Resource hist m0)).2 := by
  simp [replay, run, Op.exec]

theorem thread_inside_not_start (pc : Thread) (h : pc.inside = true) :
    pc.isStart = false ∧ pc.result = none := by
  cases pc <;> simp_all [Thread.inside, Thread.isStart, Thread.result]

theorem kinds_set (threads : List (Kind × Thread)) (i : Nat) (k : Kind) (pc pc2 : Thread)
    (h : threads[i]? = some (k, pc)) :
    (threads.set i (k, pc2)).map Prod.fst = threads.map Prod.fst := by
  apply List.ext_getElem?
  intro j
  by_cases e : i = j
  · subst e
    have hlt : i < threads.length := by
      rcases List.getElem?_eq_some.mp h with ⟨hlt, _⟩
      exact hlt
    rw [List.getElem?_map, List.getElem?_set_self hlt, List.getElem?_map, h]
    rfl
  · rw [List.getElem?_map, List.getElem?_set_ne e, List.getElem?_map]

theorem Inv_init (Resource : String → GroupResource) (m0 : Machine) (ks : List Kind) :
    Inv Resource m0 ks (Config.init m0 ks) [] := by
  refine ⟨?_, ?_, ?_, ?_, ?_, ?_⟩
  · simp [Config.init, Function.comp_def]
  · intro k hk
    cases hk
  · rintro ⟨t, ht, hs⟩
    simp only [Config.init, List.mem_map] at ht
    obtain ⟨k, _, rfl⟩ := ht
    simp [Thread.isStart] at hs
  · intro _
    refine ⟨?_, rfl⟩
    intro t ht
    simp only [Config.init, List.mem_map] at ht
    obtain ⟨k, _, rfl⟩ := ht
    rfl
  · intro hl
    simp [Config.init] at hl
  · intro t ht i hi
    simp only [Config.init, List.mem_map] at ht
    obtain ⟨k, _, rfl⟩ := ht
    simp [Thread.result] at hi

theorem config_step_absent (Resource : String → GroupResource) (c : Config) (i : Nat)
    (ht : c.threads[i]? = none) : c.step Resource i = c := by
  simp [Config.step, ht]

theorem config_step_stuck (Resource : String → GroupResource) (c : Config) (i : Nat)
    (k : Kind) (pc : Thread) (ht : c.threads[i]? = some (k, pc))
    (hs : pc.step Resource k c.m c.lock = none) : c.step Resource i = c := by
  simp [Config.step, ht, hs]

theorem config_step_moves (Resource : String → GroupResource) (c : Config) (i : Nat)
    (k : Kind) (pc pc2 : Thread) (m2 : Machine) (l2 : Bool)
    (ht : c.threads[i]? = some (k, pc))
    (hs : pc.step Resource k c.m c.lock = some (pc2, m2, l2)) :
    c.step Resource i = ⟨m2, l2, c.threads.set i (k, pc2)⟩ := by
  simp [Config.step, ht, hs]

theorem Inv_step (Resource : String → GroupResource) (m0 : Machine) (ks : List Kind)
    (c : Config) (hist : List Kind) (i : Nat) (h : Inv Resource m0 ks c hist) :
    ∃ hist2, Inv Resource m0 ks (c.step Resource i) hist2 := by
  cases ht : c.threads[i]? with
  | none => exact ⟨hist, by rw [config_step_absent Resource c i ht]; exact h⟩
  | some t =>
    obtain ⟨k, pc⟩ := t
    cases hs : pc.step Resource k c.m c.lock with
    | none => exact ⟨hist, by rw [config_step_stuck Resource c i k pc ht hs]; exact h⟩
    | some r =>
      obtain ⟨pc2, m2, l2⟩ := r
      rw [config_step_moves Resource c i k pc pc2 m2 l2 ht hs]
      have hlt : i < c.threads.length := by
        rcases List.getElem?_eq_some.mp ht with ⟨hlt, _⟩
        exact hlt
      have hmem : (k, pc) ∈ c.threads := List.getElem?_mem ht
      have hkinds : (c.threads.set i (k, pc2)).map Prod.fst = ks := by
        rw [kinds_set c.threads i k pc pc2 ht]
        exact h.kinds
      have holder : pc.inside = true →
          c.lock = true ∧ (∀ (j : Nat) (t : Kind × Thread), j ≠ i → c.threads[j]? = some t →
            t.2.inside = false) ∧
          (pc.finish Resource k c.m).2 = replay Resource hist m0 ∧
          (replay Resource hist m0).f.coreInformers.get (keyOf k)
            = some (pc.finish Resource k c.m).1 := by
        intro hin
        have hl : c.lock = true := by
          cases hc : c.lock with
          | false =>
            have := (h.free hc).1 _ hmem
            simp [hin] at this
          | true => rfl
        obtain ⟨i2, k2, pc3, hi2, _, hexcl, hfin, hget⟩ := h.held hl
        have hii : i = i2 := by
          by_contra hne
          have := hexcl i (k, pc) hne ht
          simp [hin] at this
        subst hii
        rw [ht] at hi2
        cases hi2
        exact ⟨hl, hexcl, hfin, hget⟩
      rcases thread_step_cases Resource k pc pc2 c.m m2 c.lock l2 hs with
        ⟨rfl, hl, rfl, rfl, rfl⟩ | ⟨hin, hin2, rfl⟩ | ⟨j, rfl, rfl, rfl, rfl⟩
      · obtain ⟨hfree, hm⟩ := h.free hl
        refine ⟨hist ++ [k], hkinds, ?_, fun _ => by simp, ?_, ?_, ?_⟩
        · intro k2 hk2
          rcases List.mem_append.mp hk2 with h1 | h1
          · exact h.hist_kinds _ h1
          · simp only [List.mem_singleton] at h1
            subst h1
            rw [← h.kinds]
            exact List.mem_map.mpr ⟨_, hmem, rfl⟩
        · intro hc
          cases hc
        · intro _
          refine ⟨i, k, Thread.locked, List.getElem?_set_self hlt, rfl, ?_, ?_, ?_⟩
          · intro j t hj htj
            rw [List.getElem?_set_ne (Ne.symm hj)] at htj
            exact hfree t (List.getElem?_mem htj)
          · show (Informer Resource k c.m).2 = replay Resource (hist ++ [k]) m0
            rw [replay_snoc, hm]
          · show (replay Resource (hist ++ [k]) m0).f.coreInformers.get (keyOf k)
              = some (Informer Resource k c.m).1
            rw [replay_snoc, ← hm]
            exact Informer_get_self Resource k c.m
        · intro t htmem r hr
          rw [replay_snoc]
          rcases List.mem_or_eq_of_mem_set htmem with h1 | h1
          · exact Informer_keeps Resource k _ _ _ (h.done t h1 r hr)
          · subst h1
            simp [Thread.result] at hr
      · obtain ⟨hl, hexcl, hfin, hget⟩ := holder hin
        have hf := thread_finish_step Resource k pc pc2 c.m m2 c.lock c.lock hin hs
        refine ⟨hist, hkinds, h.hist_kinds,
          fun _ => h.hist_ne ⟨(k, pc), hmem, (thread_inside_not_start pc hin).1⟩, ?_, ?_, ?_⟩
        · intro hc
          rw [hl] at hc
          cases hc
        · intro _
          refine ⟨i, k, pc2, List.getElem?_set_self hlt, hin2, ?_, ?_, ?_⟩
          · intro j t hj htj
            rw [List.getElem?_set_ne (Ne.symm hj)] at htj
            exact hexcl j t hj htj
          · show (pc2.finish Resource k m2).2 = _
            rw [hf]
            exact hfin
          · show _ = some (pc2.finish Resource k m2).1
            rw [hf]
            exact hget
        · intro t htmem r hr
          rcases List.mem_or_eq_of_mem_set htmem with h1 | h1
          · exact h.done t h1 r hr
          · subst h1
            rw [(thread_inside_not_start pc2 hin2).2] at hr
            cases hr
      · obtain ⟨hl, hexcl, hfin, hget⟩ := holder rfl
        refine ⟨hist, hkinds, h.hist_kinds,
          fun _ => h.hist_ne ⟨(k, Thread.unlock j), hmem, rfl⟩, ?_, ?_, ?_⟩
        · intro _
          refine ⟨?_, hfin⟩
          intro t htmem
          obtain ⟨n, hn⟩ := List.mem_iff_getElem?.mp htmem
          by_cases e : n = i
          · subst e
            rw [List.getElem?_set_self hlt] at hn
            cases hn
            rfl
          · rw [List.getElem?_set_ne (Ne.symm e)] at hn
            exact hexcl n t e hn
        · intro hc
          cases hc
        · intro t htmem r hr
          rcases List.mem_or_eq_of_mem_set htmem with h1 | h1
          · exact h.done t h1 r hr
          · subst h1
            simp only [Thread.result, Option.some.injEq] at hr
            subst hr
            exact hget

theorem Inv_run (Resource : String → GroupResource) (m0 : Machine) (ks : List Kind)
    (sched : List Nat) :
    ∀ (c : Config) (hist : List Kind), Inv Resource m0 ks c hist →
      ∃ hist2, Inv Resource m0 ks (c.run Resource sched) hist2 := by
  induction sched with
  | nil => intro c hist h; exact ⟨hist, h⟩
  | cons i sched ih =>
    intro c hist h
    obtain ⟨hist1, h1⟩ := Inv_step Resource m0 ks c hist i h
    exact ih _ hist1 h1

theorem thread_step_heap (Resource : String → GroupResource) (k : Kind) (pc pc2 : Thread)
    (m m2 : Machine) (lock lock2 : Bool)
    (h : pc.step Resource k m lock = some (pc2, m2, lock2)) :
    ∃ add, m2.heap = m.heap ++ add := by
  cases pc with
  | start =>
    cases lock <;> simp [Thread.step] at h
    obtain ⟨_, rfl, _⟩ := h
    exact ⟨[], by simp⟩
  | done i => simp [Thread.step] at h
  | locked =>
    simp only [Thread.step] at h
    cases hk : m.f.coreInformers.get (keyOf k) <;>
      simp only [hk, Option.some.injEq, Prod.mk.injEq] at h <;>
      obtain ⟨_, rfl, _⟩ := h <;>
      exact ⟨[], by simp⟩
  | resolve =>
    simp only [Thread.step, Option.some.injEq, Prod.mk.injEq] at h
    obtain ⟨_, rfl, _⟩ := h
    exact ⟨[], by simp [GetListerWatcher]⟩
  | choose lw =>
    cases lw <;>
      simp only [Thread.step, Option.some.injEq, Prod.mk.injEq] at h <;>
      obtain ⟨_, rfl, _⟩ := h <;>
      exact ⟨[], by simp [newListWatch]⟩
  | construct lw =>
    simp only [Thread.step, Option.some.injEq, Prod.mk.injEq] at h
    obtain ⟨_, rfl, _⟩ := h
    exact ⟨_, rfl⟩
  | store i =>
    simp only [Thread.step, Option.some.injEq, Prod.mk.injEq] at h
    obtain ⟨_, rfl, _⟩ := h
    exact ⟨[], by simp [Machine.store]⟩
  | unlock i =>
    simp only [Thread.step, Option.some.injEq, Prod.mk.injEq] at h
    obtain ⟨_, rfl, _⟩ := h
    exact ⟨[], by simp⟩

theorem config_step_heap (Resource : String → GroupResource) (c : Config) (i : Nat) :
    ∃ add, (c.step Resource i).m.heap = c.m.heap ++ add := by
  cases ht : c.threads[i]? with
  | none => exact ⟨[], by rw [config_step_absent Resource c i ht]; simp⟩
  | some t =>
    obtain ⟨k, pc⟩ := t
    cases hs : pc.step Resource k c.m c.lock with
    | none => exact ⟨[], by rw [config_step_stuck Resource c i k pc ht hs]; simp⟩
    | some r =>
      obtain ⟨pc2, m2, l2⟩ := r
      rw [config_step_moves Resource c i k pc pc2 m2 l2 ht hs]
      exact thread_step_heap Resource k pc pc2 c.m m2 c.lock l2 hs

theorem config_run_heap (Resource : String → GroupResource) (sched : List Nat) :
    ∀ c : Config, ∃ new, (c.run Resource sched).m.heap = c.m.heap ++ new := by
  induction sched with
  | nil => intro c; exact ⟨[], by simp [Config.run]⟩
  | cons i sched ih =>
    intro c
    obtain ⟨add, h1⟩ := config_step_heap Resource c i
    obtain ⟨new, h2⟩ := ih (c.step Resource i)
    refine ⟨add ++ new, ?_⟩
    show ((c.step Resource i).run Resource sched).m.heap = _
    rw [h2, h1, List.append_assoc]

theorem thread_finish_heap (Resource : String → GroupResource) (k : Kind) (pc : Thread)
    (m : Machine) : ∃ rest, (pc.finish Resource k m).2.heap = m.heap ++ rest := by
  have hI : ∃ rest, (Informer Resource k m).2.heap = m.heap ++ rest := by
    rw [Informer_heap]
    cases m.f.coreInformers.get (keyOf k) with
    | some i => exact ⟨[], by simp⟩
    | none => exact ⟨_, rfl⟩
  cases pc with
  | start => exact hI
  | locked => exact hI
  | resolve => exact ⟨_, rfl⟩
  | choose lw =>
    cases lw with
    | some l => exact ⟨_, rfl⟩
    | none => exact ⟨_, rfl⟩
  | construct lw => exact ⟨_, rfl⟩
  | store i => exact ⟨[], by simp [Thread.finish, Machine.store]⟩
  | unlock i => exact ⟨[], by simp [Thread.finish]⟩
  | done i => exact ⟨[], by simp [Thread.finish]⟩

theorem inv_heap_le (Resource : String → GroupResource) (m0 : Machine) (ks : List Kind)
    (c : Config) (hist : List Kind) (h : Inv Resource m0 ks c hist) :
    ∃ rest, (replay Resource hist m0).heap = c.m.heap ++ rest := by
  cases hl : c.lock with
  | false => exact ⟨[], by rw [(h.free hl).2]; simp⟩
  | true =>
    obtain ⟨i, k, pc, _, _, _, hfin, _⟩ := h.held hl
    rw [← hfin]
    exact thread_finish_heap Resource k pc c.m

theorem inv_built_le (Resource : String → GroupResource) (m0 : Machine) (ks : List Kind)
    (c : Config) (hist : List Kind) (h : Inv Resource m0 ks c hist)
    (new : List InformerRecord) (hnew : c.m.heap = m0.heap ++ new) (k : Kind) :
    (new.filter (fun r => decide (r.objType.kind = k))).length ≤ 1 := by
  obtain ⟨rest, hrest⟩ := inv_heap_le Resource m0 ks c hist h
  obtain ⟨all, hall, hcount⟩ :=
    GrowsBy_run Resource (hist.map Op.Informer) m0 m0 [] (GrowsBy_start m0)
  have e : all = new ++ rest := by
    have : m0.heap ++ all = m0.heap ++ (new ++ rest) := by
      rw [← List.append_assoc, ← hnew, ← hrest]
      exact hall.symm
    exact List.append_cancel_left this
  have h1 := (hcount k).1
  rw [e, List.filter_append, List.length_append] at h1
  omega

theorem thread_step_remaining (Resource : String → GroupResource) (k : Kind)
    (pc pc2 : Thread) (m m2 : Machine) (lock lock2 : Bool)
    (h : pc.step Resource k m lock = some (pc2, m2, lock2)) :
    pc2.remaining < pc.remaining := by
  cases pc with
  | start =>
    cases lock <;> simp [Thread.step] at h
    obtain ⟨rfl, _, _⟩ := h
    decide
  | done i => simp [Thread.step] at h
  | locked =>
    simp only [Thread.step] at h
    cases hk : m.f.coreInformers.get (keyOf k) <;>
      simp only [hk, Option.some.injEq, Prod.mk.injEq] at h <;>
      obtain ⟨rfl, _, _⟩ := h <;>
      simp [Thread.remaining]
  | resolve =>
    simp only [Thread.step, Option.some.injEq, Prod.mk.injEq] at h
    obtain ⟨rfl, _, _⟩ := h
    simp [Thread.remaining]
  | choose lw =>
    cases lw <;>
      simp only [Thread.step, Option.some.injEq, Prod.mk.injEq] at h <;>
      obtain ⟨rfl, _, _⟩ := h <;>
      simp [Thread.remaining]
  | construct lw =>
    simp only [Thread.step, Option.some.injEq, Prod.mk.injEq] at h
    obtain ⟨rfl, _, _⟩ := h
    simp [Thread.remaining]
  | store i =>
    simp only [Thread.step, Option.some.injEq, Prod.mk.injEq] at h
    obtain ⟨rfl, _, _⟩ := h
    simp [Thread.remaining]
  | unlock i =>
    simp only [Thread.step, Option.some.injEq, Prod.mk.injEq] at h
    obtain ⟨rfl, _, _⟩ := h
    simp [Thread.remaining]

theorem sum_set_lt (f : Kind × Thread → Nat) :
    ∀ (l : List (Kind × Thread)) (i : Nat) (a b : Kind × Thread),
      l[i]? = some a → f b < f a → ((l.set i b).map f).sum < (l.map f).sum := by
  intro l
  induction l with
  | nil => intro i a b h; simp at h
  | cons x l ih =>
    intro i a b h hlt
    cases i with
    | zero =>
      simp only [List.getElem?_cons_zero, Option.some.injEq] at h
      subst h
      simp only [List.set_cons_zero, List.map_cons, List.sum_cons]
      omega
    | succ n =>
      simp only [List.getElem?_cons_succ] at h
      have := ih n a b h hlt
      simp only [List.set_cons_succ, List.map_cons, List.sum_cons]
      omega

theorem thread_inside_step (Resource : String → GroupResource) (k : Kind) (pc : Thread)
    (m : Machine) (lock : Bool) (h : pc.inside = true) :
    ∃ r, pc.step Resource k m lock = some r := by
  cases pc with
  | start => simp [Thread.inside] at h
  | done i => simp [Thread.inside] at h
  | locked =>
    simp only [Thread.step]
    cases m.f.coreInformers.get (keyOf k) <;> exact ⟨_, rfl⟩
  | resolve => exact ⟨_, rfl⟩
  | choose lw => cases lw <;> exact ⟨_, rfl⟩
  | construct lw => exact ⟨_, rfl⟩
  | store i => exact ⟨_, rfl⟩
  | unlock i => exact ⟨_, rfl⟩

theorem inv_enabled (Resource : String → GroupResource) (m0 : Machine) (ks : List Kind)
    (c : Config) (hist : List Kind) (h : Inv Resource m0 ks c hist)
    (hnd : c.allDone = false) :
    ∃ (i : Nat) (k : Kind) (pc : Thread) (r : Thread × Machine × Bool),
      c.threads[i]? = some (k, pc) ∧ pc.step Resource k c.m c.lock = some r := by
  cases hl : c.lock with
  | true =>
    obtain ⟨i, k, pc, hi, hin, _, _, _⟩ := h.held hl
    obtain ⟨r, hr⟩ := thread_inside_step Resource k pc c.m true hin
    exact ⟨i, k, pc, r, hi, hr⟩
  | false =>
    have hex : ∃ t ∈ c.threads, t.2.isDone = false := by
      by_contra hno
      have hall : c.allDone = true := by
        simp only [Config.allDone, List.all_eq_true]
        intro t ht
        by_contra hd
        exact hno ⟨t, ht, by simpa using hd⟩
      rw [hall] at hnd
      cases hnd
    obtain ⟨t, ht, hd⟩ := hex
    obtain ⟨k, pc⟩ := t
    have hin := (h.free hl).1 _ ht
    obtain ⟨i, hi⟩ := List.mem_iff_getElem?.mp ht
    have hpc : pc = Thread.start := by
      cases pc <;> simp_all [Thread.inside, Thread.isDone]
    subst hpc
    exact ⟨i, k, Thread.start, _, hi, rfl⟩

theorem inv_complete (Resource : String → GroupResource) (m0 : Machine) (ks : List Kind) :
    ∀ (n : Nat) (c : Config) (hist : List Kind), Inv Resource m0 ks c hist →
      c.remaining ≤ n →
      ∃ more : List Nat, more.length ≤ n ∧ (c.run Resource more).allDone = true := by
  intro n
  induction n with
  | zero =>
    intro c hist h hn
    cases hd : c.allDone with
    | true => exact ⟨[], Nat.le_refl _, hd⟩
    | false =>
      obtain ⟨i, k, pc, r, hi, hr⟩ := inv_enabled Resource m0 ks c hist h hd
      obtain ⟨pc2, m2, l2⟩ := r
      have h1 := thread_step_remaining Resource k pc pc2 c.m m2 c.lock l2 hr
      have h2 := sum_set_lt (fun t => t.2.remaining) c.threads i (k, pc) (k, pc2) hi h1
      simp only [Config.remaining] at hn
      omega
  | succ n ih =>
    intro c hist h hn
    cases hd : c.allDone with
    | true => exact ⟨[], Nat.zero_le _, hd⟩
    | false =>
      obtain ⟨i, k, pc, r, hi, hr⟩ := inv_enabled Resource m0 ks c hist h hd
      obtain ⟨pc2, m2, l2⟩ := r
      have h1 := thread_step_remaining Resource k pc pc2 c.m m2 c.lock l2 hr
      have h2 := sum_set_lt (fun t => t.2.remaining) c.threads i (k, pc) (k, pc2) hi h1
      obtain ⟨hist2, hinv⟩ := Inv_step Resource m0 ks c hist i h
      have hrem : (c.step Resource i).remaining ≤ n := by
        rw [config_step_moves Resource c i k pc pc2 m2 l2 hi hr]
        simp only [Config.remaining] at hn ⊢
        omega
      obtain ⟨more, hlen, hdone⟩ := ih (c.step Resource i) hist2 hinv hrem
      exact ⟨i :: more, by simpa using hlen, hdone⟩

theorem config_init_remaining (m0 : Machine) (ks : List Kind) :
    (Config.init m0 ks).remaining = 7 * ks.length := by
  induction ks with
  | nil => rfl
  | cons k ks ih =>
    simp only [Config.remaining, Config.init, List.map_cons, List.sum_cons,
      List.length_cons] at ih ⊢
    rw [ih]
    simp [Thread.remaining]
    omega

theorem config_run_append (Resource : String → GroupResource) (s1 s2 : List Nat)
    (c : Config) :
    c.run Resource (s1 ++ s2) = (c.run Resource s1).run Resource s2 := by
  simp [Config.run]

theorem replay_replicate (Resource : String → GroupResource) (k : Kind) (m0 : Machine)
    (n : Nat) :
    replay Resource (List.replicate (n + 1) k) m0 = (Informer Resource k m0).2 := by
  induction n with
  | zero => simp [replay, run, Op.exec]
  | succ n ih =>
    have e : List.replicate (n + 1 + 1) k = List.replicate (n + 1) k ++ [k] := by
      rw [← List.replicate_succ']
    rw [e, replay_snoc, ih, Informer_again]

theorem inv_single_kind (Resource : String → GroupResource) (m0 : Machine) (k : Kind)
    (n : Nat) (c : Config) (hist : List Kind)
    (h : Inv Resource m0 (List.replicate (n + 1) k) c hist) (hd : c.allDone = true) :
    c.lock = false ∧ c.m = (Informer Resource k m0).2 ∧
      c.results = List.replicate (n + 1) (some (Informer Resource k m0).1) := by
  simp only [Config.allDone, List.all_eq_true] at hd
  have hlen : c.threads.length = n + 1 := by
    have := congrArg List.length h.kinds
    simpa using this
  have hne : hist ≠ [] := by
    cases hc : c.threads with
    | nil => rw [hc] at hlen; cases hlen
    | cons t ts =>
      apply h.hist_ne
      refine ⟨t, by rw [hc]; exact List.mem_cons_self _ _, ?_⟩
      have := hd t (by rw [hc]; exact List.mem_cons_self _ _)
      cases ht : t.2 <;> simp_all [Thread.isDone, Thread.isStart]
  have hall : ∀ k2 ∈ hist, k2 = k := by
    intro k2 hk2
    exact (List.mem_replicate.mp (h.hist_kinds k2 hk2)).2
  have hrep : replay Resource hist m0 = (Informer Resource k m0).2 := by
    have e : hist = List.replicate hist.length k := List.eq_replicate_length.mpr hall
    cases hh : hist.length with
    | zero => exact absurd (List.length_eq_zero.mp hh) hne
    | succ j =>
      rw [e, hh]
      exact replay_replicate Resource k m0 j
  have hl : c.lock = false := by
    cases hc : c.lock with
    | false => rfl
    | true =>
      obtain ⟨i, k2, pc, hi, hin, _, _, _⟩ := h.held hc
      have := hd _ (List.getElem?_mem hi)
      cases pc <;> simp_all [Thread.isDone, Thread.inside]
  refine ⟨hl, by rw [(h.free hl).2, hrep], ?_⟩
  have hres : ∀ t ∈ c.threads, t.2.result = some (Informer Resource k m0).1 := by
    intro t ht
    have hk : t.1 = k := by
      have : t.1 ∈ c.threads.map Prod.fst := List.mem_map.mpr ⟨t, ht, rfl⟩
      rw [h.kinds] at this
      exact (List.mem_replicate.mp this).2
    have hdt := hd t ht
    cases hpc : t.2 with
    | done i =>
      have := h.done t ht i (by rw [hpc]; rfl)
      rw [hrep, hk, Informer_get_self] at this
      simp only [Thread.result]
      exact this.symm
    | _ => simp [hpc, Thread.isDone] at hdt
  have e : c.results = List.replicate c.results.length (some (Informer Resource k m0).1) := by
    apply List.eq_replicate_length.mpr
    intro r hr
    simp only [Config.results, List.mem_map] at hr
    obtain ⟨t, ht, rfl⟩ := hr
    exact hres t ht
  rw [e]
  simp [Config.results, hlen]

theorem config_step_remaining_le (Resource : String → GroupResource) (c : Config) (i : Nat) :
    (c.step Resource i).remaining ≤ c.remaining := by
  cases ht : c.threads[i]? with
  | none => rw [config_step_absent Resource c i ht]
  | some t =>
    obtain ⟨k, pc⟩ := t
    cases hs : pc.step Resource k c.m c.lock with
    | none => rw [config_step_stuck Resource c i k pc ht hs]
    | some r =>
      obtain ⟨pc2, m2, l2⟩ := r
      rw [config_step_moves Resource c i k pc pc2 m2 l2 ht hs]
      have h1 := thread_step_remaining Resource k pc pc2 c.m m2 c.lock l2 hs
      have h2 := sum_set_lt (fun t => t.2.remaining) c.threads i (k, pc) (k, pc2) ht h1
      simp only [Config.remaining]
      omega

theorem config_run_remaining_le (Resource : String → GroupResource) (sched : List Nat) :
    ∀ c : Config, (c.run Resource sched).remaining ≤ c.remaining := by
  induction sched with
  | nil => intro c; exact Nat.le_refl _
  | cons i sched ih =>
    intro c
    exact Nat.le_trans (ih (c.step Resource i)) (config_step_remaining_le Resource c i)

/-- A call running alone under the scheduler is the method of the source: after its
seven steps the thread has returned what `Informer()` returns, the machine is the
one `Informer()` leaves, and the mutex is free. -/
theorem solo_call (Resource : String → GroupResource) (k : Kind) (m0 : Machine) :
    (Config.init m0 [k]).run Resource (List.replicate 7 0)
      = ⟨(Informer Resource k m0).2, false,
          [(k, Thread.done (Informer Resource k m0).1)]⟩ := by
  rw [Informer_eq_getOrCreate]
  cases hk : m0.f.coreInformers.get (keyOf k) with
  | some i =>
    simp [Config.run, Config.init, Config.step, Thread.step, getOrCreate, hk,
      List.replicate]
  | none =>
    cases hr : m0.f.customListerWatchers (Resource (resourceName k)) with
    | some id =>
      simp [Config.run, Config.init, Config.step, Thread.step, getOrCreate, hk, hr,
        List.replicate, afterCreate, chosenSource, GetListerWatcher,
        cache.NewSharedIndexInformer, Machine.store]
    | none =>
      simp [Config.run, Config.init, Config.step, Thread.step, getOrCreate, hk, hr,
        List.replicate, afterCreate, chosenSource, GetListerWatcher, newListWatch,
        cache.NewSharedIndexInformer, Machine.store]

/-! ## The claims -/

/-- C1: `Informer()` of each kind is get-or-create: when the table holds an entry
under the kind's key it returns that entry and leaves the state unchanged; when it
holds none it builds exactly one new informer (at an address not allocated before),
stores it under the kind's key and returns it; in both cases the returned value is
the table entry of the kind in the resulting state. -/
theorem informer_get_or_create (Resource : String → GroupResource) (k : Kind)
    (m : Machine) :
    (∀ i, m.f.coreInformers.get (keyOf k) = some i → Informer Resource k m = (i, m)) ∧
    (m.f.coreInformers.get (keyOf k) = none →
      m.deref (Informer Resource k m).1 = none ∧
      (∃ r, (Informer Resource k m).2.heap = m.heap ++ [r] ∧
        (Informer Resource k m).2.deref (Informer Resource k m).1 = some r) ∧
      (Informer Resource k m).2.f.coreInformers
        = m.f.coreInformers.set (keyOf k) (Informer Resource k m).1) ∧
    (Informer Resource k m).2.f.coreInformers.get (keyOf k)
      = some (Informer Resource k m).1 := by
  refine ⟨fun i h => Informer_hit Resource k m i h, fun h => ⟨?_, ?_, ?_⟩,
    Informer_get_self Resource k m⟩
  · simp [Informer_miss Resource k m h, Machine.deref]
  · exact ⟨_, by simp [Informer_heap, h], Informer_deref_new Resource k m h⟩
  · simp [Informer_miss Resource k m h, afterCreate]

/-- Witness of C1 at a table with an entry and at an empty table. -/
theorem informer_get_or_create_witness :
    Informer sampleResource Kind.Policy policyMachine = (⟨0⟩, policyMachine) ∧
    (Informer sampleResource Kind.Policy emptyMachine).2.f.coreInformers
      = [(keyOf Kind.Policy, ⟨0⟩)] :=
  ⟨(informer_get_or_create sampleResource Kind.Policy policyMachine).1 ⟨0⟩ rfl,
    ((informer_get_or_create sampleResource Kind.Policy emptyMachine).2.1 rfl).2.2⟩

/-- C2: `Informer()` is idempotent: each of N successive calls for a kind returns
the result of the first call, instance and state (so that later calls build nothing
and do not consult the overrides resolver), and replacing the overrides resolver
after the first call changes neither the instance returned nor the heap record
behind it. -/
theorem informer_idempotent (Resource : String → GroupResource) (k : Kind) (m : Machine)
    (N : Nat) :
    calls Resource k N m = List.replicate N (Informer Resource k m) ∧
    Informer Resource k (Informer Resource k m).2 = Informer Resource k m ∧
    (Informer Resource k (Informer Resource k m).2).2.heap = (Informer Resource k m).2.heap ∧
    (Informer Resource k (Informer Resource k m).2).2.resolverCalls
      = (Informer Resource k m).2.resolverCalls ∧
    ∀ g : GroupResource → Option Nat,
      Informer Resource k
          { (Informer Resource k m).2 with
            f := { (Informer Resource k m).2.f with customListerWatchers := g } }
        = ((Informer Resource k m).1,
          { (Informer Resource k m).2 with
            f := { (Informer Resource k m).2.f with customListerWatchers := g } }) := by
  refine ⟨?_, Informer_again Resource k m, by rw [Informer_again], by rw [Informer_again],
    fun g => ?_⟩
  · induction N generalizing m with
    | zero => rfl
    | succ n ih =>
      simp only [calls, List.replicate_succ]
      rw [ih, Informer_again]
  · exact Informer_hit Resource k _ _ (Informer_get_self Resource k m)

/-- C3: no operation of this file replaces or removes a table entry: a key present
before `Informer()`, `Indexer()` or `Lister()` of any kind is present afterwards with
the same instance; and along any sequence of such operations, from any table and so
from an empty one, the heap only grows and at most one informer is built per kind. -/
theorem entries_never_replaced (Resource : String → GroupResource) :
    (∀ (op : Op) (m : Machine) (key : RType) (v : SharedIndexInformer),
      m.f.coreInformers.get key = some v →
        (op.exec Resource m).f.coreInformers.get key = some v) ∧
    (∀ (ops : List Op) (m : Machine),
      ∃ new, (run Resource ops m).heap = m.heap ++ new ∧
        ∀ k, (new.filter (fun r => decide (r.objType.kind = k))).length ≤ 1) := by
  refine ⟨fun op m key v h => ?_, fun ops m => ?_⟩
  · obtain ⟨k, hk⟩ := exec_eq Resource m op
    rw [hk]
    exact Informer_keeps Resource k m key v h
  · obtain ⟨new, h1, h2⟩ := GrowsBy_run Resource ops m m [] (GrowsBy_start m)
    exact ⟨new, h1, fun k => (h2 k).1⟩

/-- Witness of C3: an entry survives an operation of another kind, and a run of six
operations from an empty table builds two informers, one per kind asked for. -/
theorem entries_never_replaced_witness :
    ((Op.Lister Kind.ClusterPolicy).exec sampleResource policyMachine).f.coreInformers.get
        (keyOf Kind.Policy) = some ⟨0⟩ ∧
    (run sampleResource
        [Op.Informer Kind.Policy, Op.Lister Kind.Policy, Op.Indexer Kind.PolicyBinding,
          Op.Informer Kind.Policy, Op.Informer Kind.PolicyBinding, Op.Indexer Kind.Policy]
        emptyMachine).heap.length = 2 ∧
    ∃ new, (run sampleResource
        [Op.Informer Kind.Policy, Op.Lister Kind.Policy, Op.Indexer Kind.PolicyBinding,
          Op.Informer Kind.Policy, Op.Informer Kind.PolicyBinding, Op.Indexer Kind.Policy]
        emptyMachine).heap = emptyMachine.heap ++ new ∧
      ∀ k, (new.filter (fun r => decide (r.objType.kind = k))).length ≤ 1 :=
  ⟨(entries_never_replaced sampleResource).1 (Op.Lister Kind.ClusterPolicy) policyMachine
      (keyOf Kind.Policy) ⟨0⟩ rfl,
    rfl,
    (entries_never_replaced sampleResource).2 _ emptyMachine⟩

/-- C4: the keys of the four kinds are pairwise distinct; for distinct kinds `k1`
and `k2` and every state, `Informer()` of `k1` leaves the entry or absence of an
entry under the key of `k2` unchanged, and what it returns does not depend on that
entry; in every state of the registry, that is in every state reached from an empty
table by the operations of this file, and more generally whenever the entry under
the key of `k2` is an allocated informer other than the entry of `k1`, it never
returns the instance stored under the key of `k2`; and from an empty table
`Informer()` of `k1` followed by `Informer()` of `k2` yields a table with exactly two
entries holding two different instances. -/
theorem isolation_across_kinds (Resource : String → GroupResource) (k1 k2 : Kind)
    (hne : k1 ≠ k2) :
    keyOf k1 ≠ keyOf k2 ∧
    (∀ m : Machine,
      (Informer Resource k1 m).2.f.coreInformers.get (keyOf k2)
        = m.f.coreInformers.get (keyOf k2)) ∧
    (∀ (m : Machine) (v : SharedIndexInformer),
      (Informer Resource k1 (m.store (keyOf k2) v)).1 = (Informer Resource k1 m).1) ∧
    (∀ m : Machine, m.Apart k1 k2 →
      m.f.coreInformers.get (keyOf k2) ≠ some (Informer Resource k1 m).1 ∧
      (Informer Resource k1 m).2.f.coreInformers.get (keyOf k2)
        ≠ some (Informer Resource k1 m).1) ∧
    (∀ (ops : List Op) (m : Machine), m.f.coreInformers = [] →
      (run Resource ops m).Apart k1 k2 ∧
      (run Resource ops m).f.coreInformers.get (keyOf k2)
        ≠ some (Informer Resource k1 (run Resource ops m)).1 ∧
      (Informer Resource k1 (run Resource ops m)).2.f.coreInformers.get (keyOf k2)
        ≠ some (Informer Resource k1 (run Resource ops m)).1) ∧
    (∀ m : Machine, m.f.coreInformers = [] →
      (Informer Resource k2 (Informer Resource k1 m).2).2.f.coreInformers
        = [(keyOf k2, (Informer Resource k2 (Informer Resource k1 m).2).1),
            (keyOf k1, (Informer Resource k1 m).1)] ∧
      (Informer Resource k2 (Informer Resource k1 m).2).1 ≠ (Informer Resource k1 m).1) := by
  have hkey : keyOf k1 ≠ keyOf k2 := fun c => hne (keyOf_injective _ _ c)
  have hapart : ∀ m : Machine, m.Apart k1 k2 →
      m.f.coreInformers.get (keyOf k2) ≠ some (Informer Resource k1 m).1 ∧
      (Informer Resource k1 m).2.f.coreInformers.get (keyOf k2)
        ≠ some (Informer Resource k1 m).1 := by
    intro m h
    refine ⟨Informer_fst_of_apart Resource k1 k2 m h, ?_⟩
    rw [Informer_frame Resource k1 m _ hkey.symm]
    exact Informer_fst_of_apart Resource k1 k2 m h
  refine ⟨hkey, fun m => Informer_frame Resource k1 m _ hkey.symm, fun m v => ?_, hapart,
    fun ops m h => ?_, fun m h => ?_⟩
  · have hget : (m.store (keyOf k2) v).f.coreInformers.get (keyOf k1)
        = m.f.coreInformers.get (keyOf k1) := by
      simp [Machine.store, table_get_set_ne _ _ _ _ hkey]
    cases hk : m.f.coreInformers.get (keyOf k1) with
    | some i =>
      rw [Informer_hit Resource k1 m i hk, Informer_hit Resource k1 _ i (hget.trans hk)]
    | none =>
      rw [Informer_miss Resource k1 m hk, Informer_miss Resource k1 _ (hget.trans hk)]
      rfl
  · have hA : (run Resource ops m).Apart k1 k2 :=
      Apart_of_wellFormed k1 k2 _ hne (WellFormed_run Resource ops m (WellFormed_empty m h))
    exact ⟨hA, hapart _ hA⟩
  · have h1 : m.f.coreInformers.get (keyOf k1) = none := by simp [h, Table.get]
    have h2 : (Informer Resource k1 m).2.f.coreInformers.get (keyOf k2) = none := by
      rw [Informer_frame Resource k1 m _ hkey.symm]
      simp [h, Table.get]
    have hb : (keyOf k1 != keyOf k2) = true := by simpa using hkey
    rw [Informer_miss Resource k2 _ h2, Informer_miss Resource k1 m h1]
    constructor
    · simp [afterCreate, Table.set, h, hb]
    · simp [afterCreate]

/-- Witness of C4: from an empty table the policy informer and then the policy
binding informer fill two entries; in the state a run of three operations reaches,
and in a table that holds the policy informer, `Informer()` of the policy binding
kind does not return the instance stored under the policy key. -/
theorem isolation_across_kinds_witness :
    (Informer sampleResource Kind.PolicyBinding
        (Informer sampleResource Kind.Policy emptyMachine).2).2.f.coreInformers
      = [(keyOf Kind.PolicyBinding, ⟨1⟩), (keyOf Kind.Policy, ⟨0⟩)] ∧
    (run sampleResource
        [Op.Informer Kind.Policy, Op.Lister Kind.PolicyBinding, Op.Indexer Kind.Policy]
        emptyMachine).f.coreInformers.get (keyOf Kind.Policy)
      ≠ some (Informer sampleResource Kind.PolicyBinding
          (run sampleResource
            [Op.Informer Kind.Policy, Op.Lister Kind.PolicyBinding, Op.Indexer Kind.Policy]
            emptyMachine)).1 ∧
    policyMachine.f.coreInformers.get (keyOf Kind.Policy)
      ≠ some (Informer sampleResource Kind.PolicyBinding policyMachine).1 :=
  ⟨((isolation_across_kinds sampleResource Kind.Policy Kind.PolicyBinding
      (by decide)).2.2.2.2.2 emptyMachine rfl).1,
    ((isolation_across_kinds sampleResource Kind.PolicyBinding Kind.Policy
      (by decide)).2.2.2.2.1 _ emptyMachine rfl).2.1,
    ((isolation_across_kinds sampleResource Kind.PolicyBinding Kind.Policy
      (by decide)).2.2.2.1 policyMachine
      (by
        intro v hv
        have e : v = ⟨0⟩ := by
          have h0 : policyMachine.f.coreInformers.get (keyOf Kind.Policy) = some ⟨0⟩ := rfl
          rw [h0] at hv
          exact (Option.some.inj hv).symm
        subst e
        exact ⟨by decide, by decide⟩)).1⟩

/-- C5: at a first `Informer()` call of kind `k` (no table entry yet) the resolver is
asked once, for the resource name of `k`; when it returns a source, the informer is
built with exactly that source and no `cache.ListWatch` is allocated; the informer
is built with a `cache.ListWatch` of this file, and one is allocated, exactly when
the resolver returns nil. -/
theorem override_precedence (Resource : String → GroupResource) (k : Kind) (m : Machine)
    (h : m.f.coreInformers.get (keyOf k) = none) :
    (Informer Resource k m).2.resolverCalls
      = m.resolverCalls ++ [Resource (resourceName k)] ∧
    (∀ id, m.f.customListerWatchers (Resource (resourceName k)) = some id →
      (∃ r, (Informer Resource k m).2.deref (Informer Resource k m).1 = some r ∧
        r.lw = ListerWatcher.override id) ∧
      (Informer Resource k m).2.listWatchAllocs = m.listWatchAllocs) ∧
    ((∃ r lw, (Informer Resource k m).2.deref (Informer Resource k m).1 = some r ∧
        r.lw = ListerWatcher.listWatch lw)
      ↔ m.f.customListerWatchers (Resource (resourceName k)) = none) ∧
    ((Informer Resource k m).2.listWatchAllocs = m.listWatchAllocs + 1
      ↔ m.f.customListerWatchers (Resource (resourceName k)) = none) := by
  have hd := Informer_deref_new Resource k m h
  refine ⟨by simp [Informer_miss Resource k m h, afterCreate], fun id hid => ⟨?_, ?_⟩, ?_, ?_⟩
  · exact ⟨_, hd, chosenSource_some Resource k m id hid⟩
  · simp [Informer_miss Resource k m h, afterCreate, hid]
  · rw [hd]
    cases hr : m.f.customListerWatchers (Resource (resourceName k)) with
    | none => simp [chosenSource_none Resource k m hr]
    | some id => simp [chosenSource_some Resource k m id hr]
  · cases hr : m.f.customListerWatchers (Resource (resourceName k)) with
    | none => simp [Informer_miss Resource k m h, afterCreate, hr]
    | some id => simp [Informer_miss Resource k m h, afterCreate, hr]

/-- Witness of C5 at a registry with an override for policies: the policy informer
is built with the override, the policy binding informer with the default source. -/
theorem override_precedence_witness :
    (∃ r, (Informer sampleResource Kind.Policy overrideMachine).2.deref
          (Informer sampleResource Kind.Policy overrideMachine).1 = some r ∧
        r.lw = ListerWatcher.override 42) ∧
    (Informer sampleResource Kind.PolicyBinding overrideMachine).2.listWatchAllocs
      = overrideMachine.listWatchAllocs + 1 :=
  ⟨((override_precedence sampleResource Kind.Policy overrideMachine rfl).2.1 42 rfl).1,
    (override_precedence sampleResource Kind.PolicyBinding overrideMachine rfl).2.2.2.2 rfl⟩

/-- C6: the steps of a call, run alone, are the method `Informer()` of the source;
in every interleaving of any number of `Informer()` calls on one factory, under the
mutex `f.lock`, any two calls of a kind that have returned returned the same
instance, and at most one informer per kind has been built; every interleaving can
be continued, within seven steps per call, until every call has returned; and once
all of n+1 racing calls of one kind have returned, each returned what a single call
returns, the machine is the machine a single call leaves, and on a table without an
entry for the kind exactly one informer was built. -/
theorem singleton_under_concurrency (Resource : String → GroupResource) (m0 : Machine)
    (ks : List Kind) (sched : List Nat) :
    (∀ k : Kind, (Config.init m0 [k]).run Resource (List.replicate 7 0)
      = ⟨(Informer Resource k m0).2, false,
          [(k, Thread.done (Informer Resource k m0).1)]⟩) ∧
    (∀ (a b : Nat) (k : Kind) (i j : SharedIndexInformer),
      ((Config.init m0 ks).run Resource sched).threads[a]? = some (k, Thread.done i) →
      ((Config.init m0 ks).run Resource sched).threads[b]? = some (k, Thread.done j) →
      i = j) ∧
    (∃ new, ((Config.init m0 ks).run Resource sched).m.heap = m0.heap ++ new ∧
      ∀ k, (new.filter (fun r => decide (r.objType.kind = k))).length ≤ 1) ∧
    (∃ more : List Nat, more.length ≤ 7 * ks.length ∧
      ((Config.init m0 ks).run Resource (sched ++ more)).allDone = true) ∧
    (∀ (k : Kind) (n : Nat), ks = List.replicate (n + 1) k →
      ((Config.init m0 ks).run Resource sched).allDone = true →
      ((Config.init m0 ks).run Resource sched).results
        = List.replicate (n + 1) (some (Informer Resource k m0).1) ∧
      ((Config.init m0 ks).run Resource sched).m = (Informer Resource k m0).2 ∧
      (m0.f.coreInformers.get (keyOf k) = none →
        ((Config.init m0 ks).run Resource sched).m.heap.length = m0.heap.length + 1)) := by
  obtain ⟨hist, h⟩ := Inv_run Resource m0 ks sched _ [] (Inv_init Resource m0 ks)
  refine ⟨fun k => solo_call Resource k m0, ?_, ?_, ?_, ?_⟩
  · intro a b k i j ha hb
    have h1 := h.done _ (List.getElem?_mem ha) i rfl
    have h2 := h.done _ (List.getElem?_mem hb) j rfl
    rw [h1] at h2
    exact Option.some.inj h2
  · obtain ⟨new, hnew⟩ := config_run_heap Resource sched (Config.init m0 ks)
    exact ⟨new, hnew, fun k => inv_built_le Resource m0 ks _ hist h new hnew k⟩
  · obtain ⟨more, hlen, hdone⟩ := inv_complete Resource m0 ks _ _ hist h (Nat.le_refl _)
    refine ⟨more, ?_, by rw [config_run_append]; exact hdone⟩
    have := config_run_remaining_le Resource sched (Config.init m0 ks)
    rw [config_init_remaining] at this
    omega
  · intro k n hks hd
    subst hks
    obtain ⟨_, hm, hres⟩ := inv_single_kind Resource m0 k n _ hist h hd
    refine ⟨hres, hm, fun hnone => ?_⟩
    rw [hm, Informer_heap, hnone]
    simp

/-- Witness of C6: fifty callers of the policy informer race on an empty registry;
after the schedule every call has returned the informer at address 0 and the heap
holds one informer. -/
theorem singleton_under_concurrency_witness :
    ((Config.init emptyMachine (List.replicate 50 Kind.Policy)).run sampleResource
        raceSchedule).results = List.replicate 50 (some ⟨0⟩) ∧
    ((Config.init emptyMachine (List.replicate 50 Kind.Policy)).run sampleResource
        raceSchedule).m.heap.length = 1 :=
  ⟨((singleton_under_concurrency sampleResource emptyMachine
      (List.replicate 50 Kind.Policy) raceSchedule).2.2.2.2 Kind.Policy 49 rfl (by decide!)).1,
    ((singleton_under_concurrency sampleResource emptyMachine
      (List.replicate 50 Kind.Policy) raceSchedule).2.2.2.2 Kind.Policy 49 rfl
      (by decide!)).2.2 rfl⟩

/-- C7: `Lister()` of each kind returns the adapter of that kind whose only field is
the instance `Informer()` of the kind returns in the same state, and leaves the
state `Informer()` leaves; so a second `Lister()`, and an `Informer()` before or
after it, refer to the same instance. -/
theorem lister_wraps_informer (Resource : String → GroupResource) (k : Kind)
    (m : Machine) :
    (Lister Resource k m).1.fieldValues = [(Informer Resource k m).1] ∧
    (Lister Resource k m).1.kind = k ∧
    (Lister Resource k m).2 = (Informer Resource k m).2 ∧
    (Lister Resource k m).2.f.coreInformers.get (keyOf k)
      = some (Informer Resource k m).1 ∧
    Lister Resource k (Lister Resource k m).2 = Lister Resource k m ∧
    (Informer Resource k (Lister Resource k m).2).1 = (Informer Resource k m).1 ∧
    (Lister Resource k (Informer Resource k m).2).1 = (Lister Resource k m).1 := by
  have hs := Lister_state Resource k m
  have ha := Informer_again Resource k m
  refine ⟨Lister_fields Resource k m, Lister_kind Resource k m, hs, ?_, ?_, ?_, ?_⟩
  · rw [hs]
    exact Informer_get_self Resource k m
  · rw [hs, Lister_eq Resource k m, Lister_eq Resource k (Informer Resource k m).2, ha]
  · rw [hs, ha]
  · rw [Lister_eq Resource k m, Lister_eq Resource k (Informer Resource k m).2, ha]

/-- C8: `Indexer()` of each kind returns `GetIndexer()` of the instance `Informer()`
of the kind returns in the same state and leaves the state `Informer()` leaves, so
repeated `Indexer()` calls return the store of one and the same instance. -/
theorem indexer_refines_informer (Resource : String → GroupResource) (k : Kind)
    (m : Machine) :
    Indexer Resource k m
      = ((Informer Resource k m).1.GetIndexer, (Informer Resource k m).2) ∧
    (Indexer Resource k m).1.owner = (Informer Resource k m).1 ∧
    Indexer Resource k (Indexer Resource k m).2 = Indexer Resource k m := by
  have h := Indexer_eq Resource k m
  refine ⟨h, by rw [h]; rfl, ?_⟩
  rw [Indexer_eq Resource k (Indexer Resource k m).2, h]
  simp only [Informer_again]

/-- C9: when `Informer()` of kind `k` builds an informer and the resolver returns nil,
the source is a `cache.ListWatch` whose list function and watch function call, on
the factory's client, the endpoint of kind `k` with the verb of their name and the
options they were given; the endpoint has no namespace qualifier for the
cluster-scoped kinds and is qualified with `metav1.NamespaceAll` for the
namespace-scoped kinds. -/
theorem default_source_scoping (Resource : String → GroupResource) (k : Kind)
    (m : Machine) (h : m.f.coreInformers.get (keyOf k) = none)
    (hnil : m.f.customListerWatchers (Resource (resourceName k)) = none) :
    ∃ r lw, (Informer Resource k m).2.deref (Informer Resource k m).1 = some r ∧
      r.lw = ListerWatcher.listWatch lw ∧
      ∀ options : ListOptions,
        (lw.ListFunc options).client = m.f.originClient ∧
        (lw.ListFunc options).verb = Verb.List ∧
        (lw.ListFunc options).options = options ∧
        (lw.ListFunc options).endpoint.kind = k ∧
        (lw.ListFunc options).endpoint.ns
          = (if k.clusterScoped then none else some metav1.NamespaceAll) ∧
        (lw.WatchFunc options).client = m.f.originClient ∧
        (lw.WatchFunc options).verb = Verb.Watch ∧
        (lw.WatchFunc options).options = options ∧
        (lw.WatchFunc options).endpoint.kind = k ∧
        (lw.WatchFunc options).endpoint.ns
          = (if k.clusterScoped then none else some metav1.NamespaceAll) := by
  refine ⟨_, _, Informer_deref_new Resource k m h, chosenSource_none Resource k m hnil, ?_⟩
  intro options
  cases k <;> simp [defaultEndpoint, Endpoint.kind, Endpoint.ns, Kind.clusterScoped]

/-- Witness of C9 at the policy kind and an empty registry. -/
theorem default_source_scoping_witness :
    ∃ r lw, (Informer sampleResource Kind.Policy emptyMachine).2.deref
        (Informer sampleResource Kind.Policy emptyMachine).1 = some r ∧
      r.lw = ListerWatcher.listWatch lw ∧
      ∀ options : ListOptions,
        (lw.ListFunc options).endpoint = Endpoint.Policies "" ∧
        (lw.WatchFunc options).endpoint = Endpoint.Policies "" := by
  obtain ⟨r, lw, h1, h2, h3⟩ :=
    default_source_scoping sampleResource Kind.Policy emptyMachine rfl rfl
  refine ⟨r, lw, h1, h2, fun options => ?_⟩
  obtain ⟨_, _, _, hk, hn, _, _, _, hk2, hn2⟩ := h3 options
  constructor
  · cases he : (lw.ListFunc options).endpoint <;> simp_all [Endpoint.kind, Endpoint.ns,
      Kind.clusterScoped, metav1.NamespaceAll]
  · cases he : (lw.WatchFunc options).endpoint <;> simp_all [Endpoint.kind, Endpoint.ns,
      Kind.clusterScoped, metav1.NamespaceAll]

/-- C10: whenever `Informer()` of kind `k` builds an informer, the prototype handed
to the constructor is an empty object of kind `k`, whose runtime type is the table
key; the resync interval is the factory's `defaultResync`; and the index set is
empty for the cluster-scoped kinds and holds exactly the namespace index
(`cache.NamespaceIndex` mapped to `MetaNamespaceIndexFunc`) for the namespace-scoped
kinds. -/
theorem construction_parameters (Resource : String → GroupResource) (k : Kind)
    (m : Machine) (h : m.f.coreInformers.get (keyOf k) = none) :
    ∃ r, (Informer Resource k m).2.deref (Informer Resource k m).1 = some r ∧
      (Informer Resource k m).2.heap = m.heap ++ [r] ∧
      r.objType = ⟨k, []⟩ ∧
      reflect.TypeOf r.objType = keyOf k ∧
      r.resyncPeriod = m.f.defaultResync ∧
      r.indexers = (if k.clusterScoped then []
        else [(cache.NamespaceIndex, IndexFunc.MetaNamespaceIndexFunc)]) := by
  refine ⟨_, Informer_deref_new Resource k m h, by simp [Informer_heap, h], rfl, rfl, rfl,
    ?_⟩
  cases k <;> simp [defaultIndexers, Kind.clusterScoped]

/-- Witness of C10 at the policy binding kind and an empty registry. -/
theorem construction_parameters_witness :
    ∃ r, (Informer sampleResource Kind.PolicyBinding emptyMachine).2.deref
        (Informer sampleResource Kind.PolicyBinding emptyMachine).1 = some r ∧
      r.objType = ⟨Kind.PolicyBinding, []⟩ ∧
      r.resyncPeriod = 600 ∧
      r.indexers = [("namespace", IndexFunc.MetaNamespaceIndexFunc)] := by
  obtain ⟨r, h1, _, h3, _, h5, h6⟩ :=
    construction_parameters sampleResource Kind.PolicyBinding emptyMachine rfl
  exact ⟨r, h1, h3, h5, h6⟩

end Shared
